import Mathlib

/-! # go-config: a shallow embedding of `config.go`

The Go package walks a configuration struct by reflection and layers four
sources onto it: compiled defaults, a JSON snapshot file, command-line
switches and environment variables.  This file embeds the functions of
`config.go` (`printConfig`, `PrintConfig`, `readConfigFromFlag`,
`initFlagsByConfig`, `ReadConfigWithSaver`, `ReadConfig`, `readConfigFromEnv`)
as pure functions over an explicit description of the struct and of the
process state they touch, and proves properties of them.

Modelling conventions

* A struct value is a `Rec`: its fields in declaration order, each either a
  primitive leaf (`string`, `int`, `float64`, `bool`) or a nested struct, the
  shapes of the data model.  A field is exported or not; `reflect` panics
  where the source writes an unexported field or takes it as an interface
  value, and `encoding/json` skips unexported fields.  Fields of any other
  kind, which every walk of `config.go` passes over, are not part of a `Rec`.
* `float64` is an abstract carrier `F`; everything the libraries do with it
  (`strconv.ParseFloat`, the `%f` verb, the JSON encoder) is a field of `Host`.
* Library functions the source calls (`strcase`, `strconv`, `flag`,
  `encoding/json`, `os.Getenv`, `ioutil.ReadFile`) are either fields of `Host`
  or small models documented where they are defined.
* A `panic`, `os.Exit` or `log.Fatal` is an `Except.error` carrying the reason.
-/

set_option linter.unusedVariables false
set_option maxRecDepth 100000

namespace GoConfig

/-! ## Data model -/

/-- A primitive field value: the four kinds the source switches on. -/
inductive Prim (F : Type) where
  | str (s : String)
  | int (i : Int)
  | float (f : F)
  | bool (b : Bool)
  deriving DecidableEq, Repr

/-- The kind of a primitive, with the payload erased. -/
def Prim.kind {F : Type} : Prim F → Fin 4
  | .str _ => 0
  | .int _ => 1
  | .float _ => 2
  | .bool _ => 3

/-- The static part of a struct field: `reflect.StructField.Name`, the key of
its `json` tag, the result of `Tag.Lookup("description")` (`none` when the
tag is absent), and whether the field is exported (`PkgPath` empty). -/
structure Meta where
  name : String
  json : String
  description : Option String
  exported : Bool
  deriving DecidableEq, Repr

/-- A struct value: its fields in declaration order. -/
inductive Rec (F : Type) where
  | nil : Rec F
  | leaf (m : Meta) (v : Prim F) (rest : Rec F) : Rec F
  | sub (m : Meta) (inner : Rec F) (rest : Rec F) : Rec F
  deriving DecidableEq, Repr

/-- The library functions whose behaviour the source relies on but that are
outside the repository. -/
structure Host (F : Type) where
  /-- Kebab-case conversion, `strcase.ToKebab`. -/
  toKebab : String → String
  /-- Upper snake-case conversion, `strcase.ToScreamingSnake`. -/
  toScreamingSnake : String → String
  /-- Float parser, `strconv.ParseFloat(s, 64)`; `none` is an error. -/
  parseFloat : String → Option F
  /-- Integer parser of an int switch, `strconv.ParseInt(s, 0, 64)`. -/
  parseIntFlag : String → Option Int
  /-- The `%f` verb of `fmt`. -/
  fmtFloat : F → String
  /-- JSON encoding of a float; `none` when the encoder rejects the value. -/
  jsonFloat : F → Option String
  /-- JSON encoding of a string, quotes included. -/
  jsonString : String → String

/-- Why a run stopped without returning. -/
inductive Abort where
  /-- Raised by `flag` when a name is defined twice: `panic("flag redefined")`. -/
  | flagRedefined (name : String)
  /-- Raised by `flag.Parse` under `ExitOnError`: usage is printed and the
  process exits. -/
  | parseExit
  /-- A failed type assertion `v.(*T)` in `readConfigFromFlag`. -/
  | typeAssertion (name : String)
  /-- A key of `flagValues` without storage behind it. -/
  | nilDeref (name : String)
  /-- Use of `reflect.Value.Type` on the zero `Value` (a nil config). -/
  | zeroValue
  /-- Raised by `reflect` when a value obtained from an unexported field is
  set (`SetString`, `SetInt`, `SetFloat`, `SetBool`) or taken as an interface
  value (`Interface`). -/
  | unexported (name : String)
  /-- The `log.Fatal` of `save` (encoder error) or of `printConfig`. -/
  | fatal
  deriving DecidableEq, Repr

deriving instance DecidableEq for Except

/-! ## `strconv` -/

/-- Value of a run of decimal digits, most significant first; `none` when a
character is not a digit. -/
def digitsVal : Nat → List Char → Option Nat
  | acc, [] => some acc
  | acc, c :: cs =>
    if c.isDigit then digitsVal (acc * 10 + (c.toNat - 48)) cs else none

/-- The function `strconv.Atoi` for a 64-bit `int`: an optional sign, at least
one decimal digit, and a value in range. -/
def Atoi (s : String) : Option Int :=
  let body : Bool × List Char :=
    match s.toList with
    | '-' :: r => (true, r)
    | '+' :: r => (false, r)
    | cs => (false, cs)
  match body.2 with
  | [] => none
  | ds =>
    match digitsVal 0 ds with
    | none => none
    | some n =>
      let v : Int := if body.1 then -(n : Int) else (n : Int)
      if -(2 : Int) ^ 63 ≤ v ∧ v < (2 : Int) ^ 63 then some v else none

/-- The function `strconv.ParseBool`. -/
def ParseBool (s : String) : Option Bool :=
  if s = "1" ∨ s = "t" ∨ s = "T" ∨ s = "TRUE" ∨ s = "true" ∨ s = "True" then some true
  else if s = "0" ∨ s = "f" ∨ s = "F" ∨ s = "FALSE" ∨ s = "false" ∨ s = "False" then
    some false
  else none

/-! ## Environment layer -/

/-- A write to a field through `reflect` (`SetString`, `SetInt`, `SetFloat`,
`SetBool`): it panics on an unexported field. -/
def setField {F : Type} (m : Meta) (val : Prim F) : Except Abort (Prim F) :=
  if m.exported then .ok val else .error (.unexported m.name)

/-- The body of one non-struct `case` of `readConfigFromEnv` for the field
`m`: `v` is the result of `os.Getenv(name)` (empty when the variable is
unset). -/
def envLeaf {F : Type} (h : Host F) (m : Meta) (v : String) : Prim F → Except Abort (Prim F)
  | .str s => if v ≠ "" then setField m (.str v) else .ok (.str s)
  | .int i =>
    if v ≠ "" then
      match Atoi v with
      | some n => setField m (.int n)
      | none => .ok (.int i)
    else .ok (.int i)
  | .float f =>
    if v ≠ "" then
      match h.parseFloat v with
      | some x => setField m (.float x)
      | none => .ok (.float f)
    else .ok (.float f)
  | .bool b =>
    if v ≠ "" then
      match ParseBool v with
      | some x => setField m (.bool x)
      | none => .ok (.bool b)
    else .ok (.bool b)

/-- The function `readConfigFromEnv(prefix, config)`; `env` is `os.Getenv`.
The call `values.Field(i).Addr().Interface()` on a nested struct panics when
the field is unexported. -/
def readConfigFromEnv {F : Type} (h : Host F) (env : String → String) :
    String → Rec F → Except Abort (Rec F)
  | _, .nil => .ok .nil
  | pre, .leaf m v rest =>
    let name := pre ++ h.toScreamingSnake m.name
    match envLeaf h m (env name) v with
    | .error e => .error e
    | .ok v1 => (readConfigFromEnv h env pre rest).map (Rec.leaf m v1)
  | pre, .sub m inner rest =>
    let name := pre ++ h.toScreamingSnake m.name
    if m.exported then
      match readConfigFromEnv h env (name ++ ".") inner with
      | .error e => .error e
      | .ok inner1 => (readConfigFromEnv h env pre rest).map (Rec.sub m inner1)
    else .error (.unexported m.name)

/-- The value a non-struct `case` of `readConfigFromEnv` leaves in the field
when it does not panic. -/
def envApply {F : Type} (h : Host F) (v : String) : Prim F → Prim F
  | .str s => if v ≠ "" then .str v else .str s
  | .int i =>
    if v ≠ "" then
      match Atoi v with
      | some n => .int n
      | none => .int i
    else .int i
  | .float f =>
    if v ≠ "" then
      match h.parseFloat v with
      | some x => .float x
      | none => .float f
    else .float f
  | .bool b =>
    if v ≠ "" then
      match ParseBool v with
      | some x => .bool x
      | none => .bool b
    else .bool b

/-! ## The `flag` package and the switch layer -/

/-- One entry of `flag.CommandLine`: name, help text, the default it was
defined with and the current content of the variable it is bound to. -/
structure Flag (F : Type) where
  name : String
  usage : String
  defValue : Prim F
  value : Prim F
  deriving DecidableEq, Repr

/-- The process-wide state the package touches: the switches defined on
`flag.CommandLine` (newest first) and the keys of the package variable
`flagValues`.  The pointer stored under a key is the one `flag.String`,
`flag.Int`, `flag.Float64` or `flag.Bool` returned for that same name, so the
value behind a key is the current value of the switch of that name. -/
structure Proc (F : Type) where
  formal : List (Flag F)
  flagValues : List String
  deriving DecidableEq, Repr

/-- The map lookup `formal[name]` of the `flag` package. -/
def lookupFlag {F : Type} (fs : List (Flag F)) (name : String) : Option (Flag F) :=
  fs.find? (fun f => f.name = name)

/-- The definition of a switch (`flag.String`, `flag.Int`, `flag.Float64`,
`flag.Bool`): it panics when the name is already defined, and otherwise adds
the switch with its variable holding the default. -/
def flagVar {F : Type} (name : String) (value : Prim F) (usage : String)
    (fs : List (Flag F)) : Except Abort (List (Flag F)) :=
  match lookupFlag fs name with
  | some _ => .error (.flagRedefined name)
  | none => .ok ({ name := name, usage := usage, defValue := value, value := value } :: fs)

/-- The function `initFlagsByConfig(prefix, config)`.  The getters `String`,
`Int`, `Float` and `Bool` of `reflect` read unexported fields too; the call
`values.Field(i).Addr().Interface()` on a nested struct panics when the
field is unexported. -/
def initFlagsByConfig {F : Type} (h : Host F) :
    String → Rec F → Proc F → Except Abort (Proc F)
  | _, .nil, st => .ok st
  | pre, .leaf m v rest, st =>
    let name := pre ++ h.toKebab m.name
    match m.description with
    | none => initFlagsByConfig h pre rest st
    | some tag =>
      if tag ≠ "" then
        match flagVar name v tag st.formal with
        | .error e => .error e
        | .ok fs =>
          initFlagsByConfig h pre rest { formal := fs, flagValues := name :: st.flagValues }
      else initFlagsByConfig h pre rest st
  | pre, .sub m inner rest, st =>
    let name := pre ++ h.toKebab m.name
    match m.description with
    | none => initFlagsByConfig h pre rest st
    | some tag =>
      if tag ≠ "" then
        if m.exported then
          match initFlagsByConfig h (name ++ "-") inner st with
          | .error e => .error e
          | .ok st1 => initFlagsByConfig h pre rest st1
        else .error (.unexported m.name)
      else initFlagsByConfig h pre rest st

/-- The method `Value.Set` of a switch: parse the text for the switch's kind
and store it; `none` is a parse error. -/
def setFlag {F : Type} (h : Host F) (f : Flag F) (s : String) : Option (Flag F) :=
  match f.value with
  | .str _ => some { f with value := .str s }
  | .int _ => (h.parseIntFlag s).map fun n => { f with value := .int n }
  | .float _ => (h.parseFloat s).map fun x => { f with value := .float x }
  | .bool _ => (ParseBool s).map fun b => { f with value := .bool b }

/-- Store an updated switch back under its name. -/
def putFlag {F : Type} : List (Flag F) → Flag F → List (Flag F)
  | [], _ => []
  | f :: fs, g => if f.name = g.name then g :: fs else f :: putFlag fs g

/-- Split the text after the dashes at the first `=` that is not its first
character: the part before it, and the part after it when there is one. -/
def cutEq : List Char → List Char × Option (List Char)
  | [] => ([], none)
  | c :: cs =>
    if c = '=' then ([], some cs)
    else ((c :: (cutEq cs).1), (cutEq cs).2)

/-- The function `flag.Parse()` on `flag.CommandLine` (error handling
`ExitOnError`) over `os.Args[1:]`.  `pending` is a non-boolean switch that was
given without `=value` and takes the next argument as its value. -/
def parseArgs {F : Type} (h : Host F) :
    List (Flag F) → Option (Flag F) → List String → Except Abort (List (Flag F))
  | _, some _, [] => .error .parseExit
  | fs, some f, v :: rest =>
    match setFlag h f v with
    | none => .error .parseExit
    | some g => parseArgs h (putFlag fs g) none rest
  | fs, none, [] => .ok fs
  | fs, none, s :: rest =>
    match s.toList with
    | '-' :: c :: cs =>
      if c = '-' ∧ cs = [] then .ok fs
      else
        match (if c = '-' then cs else c :: cs) with
        | [] => .error .parseExit
        | b :: bs =>
          if b = '-' ∨ b = '=' then .error .parseExit
          else
            match lookupFlag fs (String.mk (b :: (cutEq bs).1)) with
            | none => .error .parseExit
            | some f =>
              match f.value, (cutEq bs).2 with
              | .bool _, some v =>
                match setFlag h f (String.mk v) with
                | none => .error .parseExit
                | some g => parseArgs h (putFlag fs g) none rest
              | .bool _, none => parseArgs h (putFlag fs { f with value := .bool true }) none rest
              | _, some v =>
                match setFlag h f (String.mk v) with
                | none => .error .parseExit
                | some g => parseArgs h (putFlag fs g) none rest
              | _, none => parseArgs h fs (some f) rest
    | _ => .ok fs

/-- The type assertion `v.(*T)` for the kind of the field, and the value the
pointer holds: `fieldValue` is the current value of the field, `flagValue`
the content of the variable of the switch; `none` is the panic of a failed
assertion. -/
def deref {F : Type} (fieldValue flagValue : Prim F) : Option (Prim F) :=
  match fieldValue, flagValue with
  | .str _, .str s => some (.str s)
  | .int _, .int i => some (.int i)
  | .float _, .float x => some (.float x)
  | .bool _, .bool b => some (.bool b)
  | _, _ => none

/-- The function `readConfigFromFlag(prefix, config)` run in process state
`st`: the type assertion comes first, then the write through `reflect`. -/
def readConfigFromFlag {F : Type} (h : Host F) (st : Proc F) :
    String → Rec F → Except Abort (Rec F)
  | _, .nil => .ok .nil
  | pre, .leaf m v rest =>
    let name := pre ++ h.toKebab m.name
    if name ∈ st.flagValues then
      match lookupFlag st.formal name with
      | none => .error (.nilDeref name)
      | some f =>
        match deref v f.value with
        | none => .error (.typeAssertion name)
        | some val =>
          match setField m val with
          | .error e => .error e
          | .ok v1 => (readConfigFromFlag h st pre rest).map (Rec.leaf m v1)
    else (readConfigFromFlag h st pre rest).map (Rec.leaf m v)
  | pre, .sub m inner rest =>
    let name := pre ++ h.toKebab m.name
    if name ∈ st.flagValues then
      if m.exported then
        match readConfigFromFlag h st (name ++ "-") inner with
        | .error e => .error e
        | .ok inner1 => (readConfigFromFlag h st pre rest).map (Rec.sub m inner1)
      else .error (.unexported m.name)
    else (readConfigFromFlag h st pre rest).map (Rec.sub m inner)

/-! ## The snapshot file -/

mutual
/-- A JSON document.  Number literals are kept as written; the elements of
an array are not kept, since an array never decodes into a field of the
kinds modelled here. -/
inductive Json where
  | null : Json
  | bool (b : Bool) : Json
  | num (lit : String) : Json
  | str (s : String) : Json
  | arr : Json
  | obj (members : Members) : Json
/-- The members of a JSON object, in document order. -/
inductive Members where
  | nil : Members
  | cons (key : String) (val : Json) (rest : Members) : Members
end

/-- What `ioutil.ReadFile` followed by the syntax check of `json.Unmarshal`
sees at a path: no readable file, bytes that are not a JSON document, or a
JSON document. -/
inductive FileState where
  | unreadable : FileState
  | malformed : FileState
  | doc (j : Json) : FileState

/-- Decoding of a JSON value into a primitive field: a value of the matching
JSON type is stored, `null` is a no-op, anything else is a type error that
is recorded and leaves the field as it is. -/
def decodePrim {F : Type} (h : Host F) (j : Json) : Prim F → Prim F
  | .str s => match j with
    | .str t => .str t
    | _ => .str s
  | .int i => match j with
    | .num lit => match Atoi lit with
      | some n => .int n
      | none => .int i
    | _ => .int i
  | .float f => match j with
    | .num lit => match h.parseFloat lit with
      | some x => .float x
      | none => .float f
    | _ => .float f
  | .bool b => match j with
    | .bool c => .bool c
    | _ => .bool b

/-- Whether some exported field of the struct has exactly this JSON key. -/
def hasKey {F : Type} (key : String) : Rec F → Bool
  | .nil => false
  | .leaf m _ rest => (m.exported && m.json = key) || hasKey key rest
  | .sub m _ rest => (m.exported && m.json = key) || hasKey key rest

/-- Apply a decoder to the first exported field whose JSON key satisfies `p`
(unexported fields are invisible to `encoding/json`). -/
def updField {F : Type} (p : String → Bool) (onLeaf : Prim F → Prim F)
    (onSub : Rec F → Rec F) : Rec F → Rec F
  | .nil => .nil
  | .leaf m v rest =>
    if m.exported && p m.json then .leaf m (onLeaf v) rest
    else .leaf m v (updField p onLeaf onSub rest)
  | .sub m inner rest =>
    if m.exported && p m.json then .sub m (onSub inner) rest
    else .sub m inner (updField p onLeaf onSub rest)

/-- The field an object key selects: the field with exactly that key, and
when there is none the first field whose key equals it up to letter case. -/
def keyMatch {F : Type} (key : String) (r : Rec F) : String → Bool :=
  fun k => if hasKey key r then k = key else k.toLower = key.toLower

mutual
/-- Decoding of a JSON object into a struct, member by member; a member
without a matching field is skipped. -/
def unmarshalObject {F : Type} (h : Host F) : Members → Rec F → Rec F
  | .nil, r => r
  | .cons key val rest, r =>
    unmarshalObject h rest
      (updField (keyMatch key r) (decodePrim h val) (fun inner => decodeStruct h val inner) r)
/-- Decoding of a JSON value into a struct: an object is decoded member by
member, `null` is a no-op, anything else is a type error. -/
def decodeStruct {F : Type} (h : Host F) : Json → Rec F → Rec F
  | .obj ms, r => unmarshalObject h ms r
  | _, r => r
end

/-- The call `json.Unmarshal(jsonConfig, &config)` for a `config` that holds
a pointer to a struct: the pointee is overlaid in place, except that the
document `null` sets the interface `config` itself to nil (`none`). -/
def Unmarshal {F : Type} (h : Host F) (j : Json) (config : Rec F) : Option (Rec F) :=
  match j with
  | .null => none
  | j => some (decodeStruct h j config)

/-- JSON text of a primitive. -/
def primJson {F : Type} (h : Host F) : Prim F → Option String
  | .str s => some (h.jsonString s)
  | .int i => some (toString i)
  | .float f => h.jsonFloat f
  | .bool b => some (if b then "true" else "false")

/-- The `"key": value` entries of a struct as `json.MarshalIndent` with indent
`"\t"` writes them, `ind` being the indentation of the entries; unexported
fields are left out. -/
def marshalEntries {F : Type} (h : Host F) : String → Rec F → Option (List String)
  | _, .nil => some []
  | ind, .leaf m v rest =>
    if m.exported then
      match primJson h v, marshalEntries h ind rest with
      | some s, some es => some ((ind ++ h.jsonString m.json ++ ": " ++ s) :: es)
      | _, _ => none
    else marshalEntries h ind rest
  | ind, .sub m inner rest =>
    if m.exported then
      match marshalEntries h (ind ++ "\t") inner, marshalEntries h ind rest with
      | some is, some es =>
        let body := if is = [] then "\x7b\x7d"
          else "\x7b\n" ++ ",\n".intercalate is ++ "\n" ++ ind ++ "\x7d"
        some ((ind ++ h.jsonString m.json ++ ": " ++ body) :: es)
      | _, _ => none
    else marshalEntries h ind rest

/-- The call `json.MarshalIndent(config, "", "\t")`; `none` is an encoder
error. -/
def MarshalIndent {F : Type} (h : Host F) (config : Rec F) : Option String :=
  match marshalEntries h "\t" config with
  | none => none
  | some [] => some "\x7b\x7d"
  | some es => some ("\x7b\n" ++ ",\n".intercalate es ++ "\n\x7d")

/-! ## Loading -/

/-- Everything outside the package a load reads: the process state
(`flag.CommandLine` and `flagValues`), `os.Args[1:]`, the environment and the
file system. -/
structure World (F : Type) where
  proc : Proc F
  args : List String
  env : String → String
  files : String → FileState

/-- The start of a process: no switch defined, `flagValues` empty. -/
def freshProc (F : Type) : Proc F := { formal := [], flagValues := [] }

/-- What a load that returns leaves behind: the live instance behind the
returned pointer, the returned `error` (`none` is nil), the process state,
the path of the snapshot file and the bytes the scheduled `save` handed to
`ioutil.WriteFile`. -/
structure Loaded (F : Type) where
  config : Rec F
  err : Option String
  proc : Proc F
  path : String
  snapshot : String

/-- The closure `save` of `ReadConfigWithSaver` run on the current instance:
the bytes it hands to `ioutil.WriteFile`, or the `log.Fatal` on an encoder
error.  A failed write is logged and returned, nothing more. -/
def save {F : Type} (h : Host F) (config : Rec F) : Except Abort String :=
  match MarshalIndent h config with
  | none => .error .fatal
  | some bytes => .ok bytes

/-- The dereference `*path` of the variable of the switch `config`. -/
def pathOf {F : Type} (fs : List (Flag F)) (defaultConfigPath : String) : String :=
  match lookupFlag fs "config" with
  | some f =>
    match f.value with
    | .str p => p
    | _ => defaultConfigPath
  | none => defaultConfigPath

/-- Lines 144 to 151 of `config.go`: `ioutil.ReadFile` and `json.Unmarshal`.
A file that cannot be read or is not a JSON document is logged and leaves
`config` as it is; `none` is the interface `config` set to nil. -/
def loadFile {F : Type} (h : Host F) (file : FileState) (config : Rec F) : Option (Rec F) :=
  match file with
  | .unreadable => some config
  | .malformed => some config
  | .doc j => Unmarshal h j config

/-- The function `ReadConfigWithSaver`, for a factory that returns a pointer
to a struct.  The deferred call of `save` runs when the function returns,
after both overlays.  A panic of a layer is reported as such (the deferred
`save` still runs while it unwinds). -/
def ReadConfigWithSaver {F : Type} (h : Host F) (createDefault : Unit → Rec F)
    (applicationName packageVersionString defaultConfigPath : String) (w : World F) :
    Except Abort (Loaded F) :=
  let config := createDefault ()
  match flagVar "config" (.str defaultConfigPath) "path to config" w.proc.formal with
  | .error e => .error e
  | .ok fs0 =>
    match initFlagsByConfig h "" config { formal := fs0, flagValues := w.proc.flagValues } with
    | .error e => .error e
    | .ok st1 =>
      match parseArgs h st1.formal none w.args with
      | .error e => .error e
      | .ok fs2 =>
        let path := pathOf fs2 defaultConfigPath
        match loadFile h (w.files path) config with
        | none => .error .zeroValue
        | some c1 =>
          match readConfigFromFlag h { formal := fs2, flagValues := st1.flagValues } "" c1 with
          | .error e => .error e
          | .ok c2 =>
            match readConfigFromEnv h w.env "" c2 with
            | .error e => .error e
            | .ok c3 =>
              match save h c3 with
              | .error e => .error e
              | .ok bytes =>
                .ok { config := c3, err := none,
                      proc := { formal := fs2, flagValues := st1.flagValues },
                      path := path, snapshot := bytes }

/-- A value passed as `interface{}`: a struct, a pointer to a struct, or
something else. -/
inductive Iface (F : Type) where
  | struct (r : Rec F) : Iface F
  | ptr (r : Rec F) : Iface F
  | other : Iface F

/-- The width `fmt` reads from the directive `"%-" + strconv.Itoa(n) + "s"`:
for `n < 0` the sign of the numeral is read as a second `-` flag, so the
width is the absolute value. -/
def fmtWidth (n : Int) : Nat := n.natAbs

/-- The verb `%-ws`: the text, then blanks up to `w` characters. -/
def padRight (w : Nat) (s : String) : String :=
  s ++ String.mk (List.replicate (w - s.length) ' ')

/-- The text `fmt` writes for a primitive under `%s`, `%d`, `%f`, `%t`. -/
def fmtPrim {F : Type} (h : Host F) : Prim F → String
  | .str s => s
  | .int i => toString i
  | .float f => h.fmtFloat f
  | .bool b => if b then "true" else "false"

/-- The loop of `printConfig(w, prefix, i)` over the fields of a struct;
`pre` is a run of blanks.  Every `case` takes the field as an interface
value (`values.Field(i).Interface()`), which panics on an unexported field. -/
def printFields {F : Type} (h : Host F) : String → Rec F → Except Abort String
  | _, .nil => .ok ""
  | pre, .leaf m v rest =>
    if m.exported then
      (printFields h pre rest).map fun tail =>
        pre ++ " - " ++ padRight (fmtWidth (25 - (pre.length : Int))) m.name ++ " : "
          ++ fmtPrim h v ++ "\n" ++ tail
    else .error (.unexported m.name)
  | pre, .sub m inner rest =>
    if m.exported then
      match printFields h (pre ++ "   ") inner with
      | .error e => .error e
      | .ok body =>
        (printFields h pre rest).map fun tail =>
          pre ++ " - " ++ padRight (fmtWidth (25 - (pre.length : Int))) m.name ++ "\n"
            ++ body ++ tail
    else .error (.unexported m.name)

/-- The function `printConfig(w, prefix, i)`: a pointer is dereferenced, and
anything that is not a struct is fatal. -/
def printConfig {F : Type} (h : Host F) (pre : String) : Iface F → Except Abort String
  | .struct r => printFields h pre r
  | .ptr r => printFields h pre r
  | .other => .error .fatal

/-- The function `PrintConfig`: what it writes to `w`. -/
def PrintConfig {F : Type} (h : Host F) (config : Iface F)
    (applicationName packageVersionString : String) : Except Abort String :=
  (printConfig h "" config).map fun body =>
    "\n" ++ applicationName ++ " (version " ++ packageVersionString
      ++ ") running with params:\n\n" ++ body ++ "\n"

/-! ## Leaves and their derived names -/

/-- A leaf of a struct: the fields on the way from the root down to it (its
own field last) and its value. -/
structure Leaf (F : Type) where
  chain : List Meta
  value : Prim F
  deriving DecidableEq, Repr

/-- Put a field in front of the chain of a leaf of one of its nested structs. -/
def Leaf.under {F : Type} (m : Meta) (l : Leaf F) : Leaf F :=
  { chain := m :: l.chain, value := l.value }

/-- The leaves of a struct at any nesting depth, depth first in declaration
order. -/
def leaves {F : Type} : Rec F → List (Leaf F)
  | .nil => []
  | .leaf m v rest => { chain := [m], value := v } :: leaves rest
  | .sub m inner rest => (leaves inner).map (Leaf.under m) ++ leaves rest

/-- Every field of the struct, at any depth, is exported. -/
def Rec.allExported {F : Type} : Rec F → Bool
  | .nil => true
  | .leaf m _ rest => m.exported && rest.allExported
  | .sub m inner rest => m.exported && inner.allExported && rest.allExported

/-- The number of levels of nested structs below the struct itself. -/
def Rec.depth {F : Type} : Rec F → Nat
  | .nil => 0
  | .leaf _ _ rest => rest.depth
  | .sub _ inner rest => max (inner.depth + 1) rest.depth

/-- The words of a path joined by a separator. -/
def joinWith (sep : String) : List String → String
  | [] => ""
  | [a] => a
  | a :: b :: rest => a ++ sep ++ joinWith sep (b :: rest)

/-- The kebab path of a leaf: the kebab-case names joined by `-`. -/
def kebabPath {F : Type} (h : Host F) (chain : List Meta) : String :=
  joinWith "-" (chain.map fun m => h.toKebab m.name)

/-- The environment variable of a leaf: the upper snake-case names joined by
`.` at nesting boundaries. -/
def envPath {F : Type} (h : Host F) (chain : List Meta) : String :=
  joinWith "." (chain.map fun m => h.toScreamingSnake m.name)

/-- A field carries a non-empty description. -/
def Meta.described (m : Meta) : Bool :=
  match m.description with
  | some tag => tag ≠ ""
  | none => false

/-- The description of the leaf's own field (empty when it has none). -/
def Leaf.help {F : Type} (l : Leaf F) : String :=
  match l.chain.getLast? with
  | some m => m.description.getD ""
  | none => ""

/-- The leaf's own field carries a non-empty description. -/
def Leaf.described {F : Type} (l : Leaf F) : Bool :=
  match l.chain.getLast? with
  | some m => m.described
  | none => false

/-- Parse a text for the kind of a given leaf value: any text is a string,
`strconv.Atoi` for an int, `strconv.ParseFloat` for a float,
`strconv.ParseBool` for a bool. -/
def parseKind {F : Type} (h : Host F) (s : String) : Prim F → Option (Prim F)
  | .str _ => some (.str s)
  | .int _ => (Atoi s).map .int
  | .float _ => (h.parseFloat s).map .float
  | .bool _ => (ParseBool s).map .bool

/-- Every field on the way to the leaf, the leaf's own included, carries a
non-empty description. -/
def Leaf.exposed {F : Type} (l : Leaf F) : Bool :=
  l.chain.all Meta.described

/-- The shape of a struct as far as its leaves go: the chain and the kind of
every leaf, in order. -/
def sig {F : Type} (r : Rec F) : List (List Meta × Fin 4) :=
  (leaves r).map fun l => (l.chain, l.value.kind)

/-! ## A concrete host for the test vectors of `config_test.go` -/

/-- The function `strcase.ToScreamingDelimited(s, delimiter, "", screaming)`
on the characters of `s`; `prev` is the character before the current one. -/
def toDelimited (delim : Char) (screaming : Bool) : Option Char → List Char → List Char
  | _, [] => []
  | prev, v :: rest =>
    let out : Char :=
      if v.isLower && screaming then v.toUpper
      else if v.isUpper && !screaming then v.toLower
      else v
    let plain : Char :=
      if v = ' ' ∨ v = '_' ∨ v = '-' ∨ v = '.' then delim else out
    let tail := toDelimited delim screaming (some v) rest
    match rest with
    | [] => plain :: tail
    | next :: _ =>
      if (v.isUpper && (next.isLower || next.isDigit))
          || (v.isLower && (next.isUpper || next.isDigit))
          || (v.isDigit && (next.isUpper || next.isLower)) then
        let before : List Char :=
          if v.isUpper && next.isLower && (match prev with
            | some q => q.isUpper
            | none => false) then [delim] else []
        let after : List Char :=
          if v.isLower || v.isDigit || next.isDigit then [delim] else []
        before ++ out :: (after ++ tail)
      else plain :: tail

/-- A decimal numeral `mant / 10 ^ scale`, standing in for the `float64`
values of the test vectors. -/
structure Dec where
  mant : Int
  scale : Nat
  deriving DecidableEq, Repr

/-- Drop trailing zero decimals, so that equal numbers have equal
representations. -/
def Dec.norm : Int → Nat → Dec
  | m, 0 => { mant := m, scale := 0 }
  | m, k + 1 => if m % 10 = 0 then Dec.norm (m / 10) k else { mant := m, scale := k + 1 }

/-- Split a list of characters at the first `.`. -/
def cutDot : List Char → List Char × Option (List Char)
  | [] => ([], none)
  | c :: cs =>
    if c = '.' then ([], some cs)
    else ((c :: (cutDot cs).1), (cutDot cs).2)

/-- Plain decimal numerals `[+-]digits[.digits]` as `Dec`. -/
def Dec.parse (s : String) : Option Dec :=
  let body : Bool × List Char :=
    match s.toList with
    | '-' :: r => (true, r)
    | '+' :: r => (false, r)
    | cs => (false, cs)
  let whole := (cutDot body.2).1
  let frac := ((cutDot body.2).2).getD []
  if whole = [] ∨ (cutDot body.2).2 = some [] then none
  else
    match digitsVal 0 (whole ++ frac) with
    | none => none
    | some n => some (Dec.norm (if body.1 then -(n : Int) else (n : Int)) frac.length)

/-- The decimal digits of `n`, padded with zeros on the left to `w` digits. -/
def zeroPad (w n : Nat) : String :=
  String.mk (List.replicate (w - (toString n).length) '0') ++ toString n

/-- The verb `%f` on a `Dec` of at most six decimals. -/
def Dec.fmt (d : Dec) : String :=
  let n := d.mant.natAbs * 10 ^ (6 - d.scale)
  (if d.mant < 0 then "-" else "") ++ toString (n / 10 ^ 6) ++ "." ++ zeroPad 6 (n % 10 ^ 6)

/-- The JSON text of a `Dec`. -/
def Dec.json (d : Dec) : String :=
  let n := d.mant.natAbs
  (if d.mant < 0 then "-" else "") ++ toString (n / 10 ^ d.scale)
    ++ (if d.scale = 0 then "" else "." ++ zeroPad d.scale (n % 10 ^ d.scale))

/-- The host used for the test vectors: `strcase` as above, floats as
decimal numerals, int switches in decimal, JSON strings quoted verbatim. -/
def testHost : Host Dec where
  toKebab s := String.mk (toDelimited '-' false none s.toList)
  toScreamingSnake s := String.mk (toDelimited '_' true none s.toList)
  parseFloat := Dec.parse
  parseIntFlag := Atoi
  fmtFloat := Dec.fmt
  jsonFloat d := some d.json
  jsonString s := "\"" ++ s ++ "\""

/-- The struct `Internal` of `config_test.go`. -/
def Internal (value : Int) : Rec Dec :=
  .leaf ⟨"Value", "value", some "struct internal int field", true⟩ (.int value) .nil

/-- The struct `TestConfiguration` of `config_test.go`. -/
def TestConfiguration (i1 i2 : Int) (s1 s2 : String) (b1 b2 : Bool) (f1 f2 : Dec)
    (inner : Rec Dec) : Rec Dec :=
  .leaf ⟨"IntField1", "int_field_1", some "int field # 1", true⟩ (.int i1) <|
  .leaf ⟨"IntField2", "int_field_2", some "int field # 1", true⟩ (.int i2) <|
  .leaf ⟨"StringField1", "string_field_1", some "string field # 1", true⟩ (.str s1) <|
  .leaf ⟨"StringField2", "string_field_2", some "string field # 2", true⟩ (.str s2) <|
  .leaf ⟨"BoolField1", "bool_field_1", some "bool field # 1", true⟩ (.bool b1) <|
  .leaf ⟨"BoolField2", "bool_field_2", some "bool field # 2", true⟩ (.bool b2) <|
  .leaf ⟨"Float64Field1", "float64_field_1", some "float64 field # 1", true⟩ (.float f1) <|
  .leaf ⟨"Float64Field2", "float64_field_2", some "float64 field # 2", true⟩ (.float f2) <|
  .sub ⟨"Internal", "internal", some "struct field", true⟩ inner .nil

/-- The value printed by `TestPrintConfig`. -/
def printedConfiguration : Rec Dec :=
  TestConfiguration 123 (-123) "some string 1" "some string 2" true false
    ⟨123123, 3⟩ ⟨-123123, 3⟩ (Internal 932832)

/-- The defaults of the factory of `TestReadConfig`. -/
def testDefaults : Unit → Rec Dec := fun _ =>
  TestConfiguration 123 (-123) "some string 1" "some string 2" true false
    ⟨123123, 3⟩ ⟨-123123, 3⟩ (Internal 9832)

/-- The environment set up by `TestReadConfig`. -/
def testEnv (name : String) : String :=
  if name = "INT_FIELD_2" then "-321"
  else if name = "STRING_FIELD_1" then "test string 1"
  else if name = "BOOL_FIELD_2" then "true"
  else if name = "FLOAT_64_FIELD_1" then "123.123"
  else if name = "INTERNAL.VALUE" then "4444"
  else ""

/-- The world of `TestReadConfig`: a fresh process, no arguments, the test's
environment and no snapshot file. -/
def testWorld : World Dec :=
  { proc := freshProc Dec, args := [], env := testEnv, files := fun _ => .unreadable }

/-- The world of `TestReadConfig` with a command line that supplies the
switches `int-field-2` and `string-field-2`. -/
def cliEnvWorld : World Dec :=
  { proc := freshProc Dec, args := ["-int-field-2=7", "-string-field-2", "from cli"],
    env := testEnv, files := fun _ => .unreadable }

/-! ## The switches a struct is registered as -/

/-- The switch of a leaf when the walk started with the name prefix `pre`. -/
def switchAt {F : Type} (h : Host F) (pre : String) (l : Leaf F) : Flag F :=
  { name := pre ++ kebabPath h l.chain, usage := l.help, defValue := l.value, value := l.value }

/-- The switches of the exposed leaves of a struct, in declaration order. -/
def regs {F : Type} (h : Host F) (pre : String) (r : Rec F) : List (Flag F) :=
  ((leaves r).filter Leaf.exposed).map (switchAt h pre)

/-- Definition of a list of switches one after the other, each recorded in
`flagValues`. -/
def defineAll {F : Type} : List (Flag F) → Proc F → Except Abort (Proc F)
  | [], st => .ok st
  | f :: fs, st =>
    match flagVar f.name f.value f.usage st.formal with
    | .error e => .error e
    | .ok fs1 => defineAll fs { formal := fs1, flagValues := f.name :: st.flagValues }

/-- The switch `config` as `ReadConfigWithSaver` defines it. -/
def configFlag {F : Type} (path : String) : Flag F :=
  { name := "config", usage := "path to config", defValue := .str path, value := .str path }

/-- The part of a switch that parsing never changes: its name and the kind
of its variable. -/
def flagKey {F : Type} (f : Flag F) : String × Fin 4 := (f.name, f.value.kind)

/-! ## The dump as the specification words it -/

/-- The indent of nesting depth `d`: three blanks per level. -/
def indent (d : Nat) : String := String.mk (List.replicate (3 * d) ' ')

/-- The lines of a dump, depth first in declaration order, for a rule
`width` that gives the width the name is padded to from the length of the
indent: one line `<indent> - <padded name> : <value>` per leaf, and for a
nested struct one header line `<indent> - <padded name>` followed by its
lines one level deeper. -/
def dumpLines {F : Type} (h : Host F) (width : Nat → Nat) : Nat → Rec F → List String
  | _, .nil => []
  | d, .leaf m v rest =>
    (indent d ++ " - " ++ padRight (width (indent d).length) m.name ++ " : " ++ fmtPrim h v)
      :: dumpLines h width d rest
  | d, .sub m inner rest =>
    (indent d ++ " - " ++ padRight (width (indent d).length) m.name)
      :: (dumpLines h width (d + 1) inner ++ dumpLines h width d rest)

/-- Lines written one after the other, each ended by a newline. -/
def unlines : List String → String
  | [] => ""
  | a :: rest => a ++ "\n" ++ unlines rest

/-- The whole dump: the banner, the lines, a final empty line. -/
def dumpText {F : Type} (h : Host F) (width : Nat → Nat) (r : Rec F)
    (applicationName packageVersionString : String) : String :=
  "\n" ++ applicationName ++ " (version " ++ packageVersionString
    ++ ") running with params:\n\n" ++ unlines (dumpLines h width 0 r) ++ "\n"

/-- The width as the specification words it: 25 minus the length of the
indent (nothing to pad once the indent is longer than that). -/
def widthClaimed (n : Nat) : Nat := 25 - n

/-- The width the code pads to: the distance between 25 and the length of
the indent. -/
def widthActual (n : Nat) : Nat := ((25 : Int) - (n : Int)).natAbs

/-- A struct nested `n` levels deep around a single int leaf `X`. -/
def deep : Nat → Rec Dec
  | 0 => .leaf ⟨"X", "x", none, true⟩ (.int 1) .nil
  | n + 1 => .sub ⟨"S", "s", none, true⟩ (deep n) .nil

/-- The text `TestPrintConfig` expects. -/
def expectedDump : String :=
  "\nTest-application (version 1.2.3-test) running with params:\n\n" ++
  " - IntField1                 : 123\n" ++
  " - IntField2                 : -123\n" ++
  " - StringField1              : some string 1\n" ++
  " - StringField2              : some string 2\n" ++
  " - BoolField1                : true\n" ++
  " - BoolField2                : false\n" ++
  " - Float64Field1             : 123.123000\n" ++
  " - Float64Field2             : -123.123000\n" ++
  " - Internal                 \n" ++
  "    - Value                  : 932832\n" ++
  "\n"

/-! ## Concrete inputs -/

/-- A factory whose struct has a described leaf `Port` and a described leaf
`Config`. -/
def portConfigDefaults : Unit → Rec Dec := fun _ =>
  .leaf ⟨"Port", "port", some "port to listen on", true⟩ (.int 80) <|
  .leaf ⟨"Config", "config", some "name of the configuration", true⟩ (.str "main") .nil

/-- A struct whose nested struct field `Inner` has no description while the
leaf `V` inside it has one. -/
def hiddenParent : Rec Dec :=
  .sub ⟨"Inner", "inner", none, true⟩ (.leaf ⟨"V", "v", some "v field", true⟩ (.int 1) .nil) .nil

/-- A snapshot file that gives values for `IntField1` and `Internal.Value`. -/
def snapshotDoc : Json :=
  .obj (.cons "int_field_1" (.num "7")
    (.cons "internal" (.obj (.cons "value" (.num "8") .nil)) .nil))

/-- A world with that snapshot file, an empty command line and an empty
environment. -/
def fileWorld : World Dec :=
  { proc := freshProc Dec, args := [], env := fun _ => "", files := fun _ => .doc snapshotDoc }

/-- A world with that snapshot file, a command line that supplies two
switches, and the environment of `TestReadConfig`. -/
def fullWorld : World Dec :=
  { proc := freshProc Dec, args := ["-int-field-2=7", "-string-field-2", "from cli"],
    env := testEnv, files := fun _ => .doc snapshotDoc }

/-- A world whose command line supplies the switches `int-field-1` and
`internal-value`, with no snapshot file and an empty environment. -/
def nestedSwitchWorld : World Dec :=
  { proc := freshProc Dec, args := ["-int-field-1=9", "-internal-value=5"], env := fun _ => "",
    files := fun _ => .unreadable }

/-- The process state of that world after registration and parsing. -/
def stagedProc : Proc Dec :=
  match initFlagsByConfig testHost "" (testDefaults ())
      { formal := [configFlag "/tmp/config.json"], flagValues := [] } with
  | .error _ => freshProc Dec
  | .ok st =>
    match parseArgs testHost st.formal none nestedSwitchWorld.args with
    | .error _ => st
    | .ok fs => { formal := fs, flagValues := st.flagValues }

/-- A world whose command line has a switch that is not defined. -/
def unknownSwitchWorld : World Dec :=
  { proc := freshProc Dec, args := ["-verbose"], env := fun _ => "",
    files := fun _ => .unreadable }

/-- A world whose snapshot file is the JSON document `null`. -/
def nullFileWorld : World Dec :=
  { proc := freshProc Dec, args := [], env := fun _ => "", files := fun _ => .doc .null }

/-- The snapshot written in `cliEnvWorld`. -/
def cliEnvSnapshot : String :=
  "\x7b\n" ++
  "\t\"int_field_1\": 123,\n" ++
  "\t\"int_field_2\": -321,\n" ++
  "\t\"string_field_1\": \"test string 1\",\n" ++
  "\t\"string_field_2\": \"from cli\",\n" ++
  "\t\"bool_field_1\": true,\n" ++
  "\t\"bool_field_2\": true,\n" ++
  "\t\"float64_field_1\": 123.123,\n" ++
  "\t\"float64_field_2\": -123.123,\n" ++
  "\t\"internal\": \x7b\n" ++
  "\t\t\"value\": 4444\n" ++
  "\t\x7d\n" ++
  "\x7d"

/-- A host whose floats have a not-a-number value `none`: `strconv.ParseFloat`
accepts the text `NaN`, and the JSON encoder rejects the value. -/
def nanHost : Host (Option Dec) where
  toKebab := testHost.toKebab
  toScreamingSnake := testHost.toScreamingSnake
  parseFloat s := if s = "NaN" then some none else (Dec.parse s).map some
  parseIntFlag := Atoi
  fmtFloat x := match x with
    | some d => d.fmt
    | none => "NaN"
  jsonFloat x := x.map Dec.json
  jsonString := testHost.jsonString

/-- A factory whose struct has one float leaf `Scale`. -/
def scaleDefaults : Unit → Rec (Option Dec) := fun _ =>
  .leaf ⟨"Scale", "scale", some "scale factor", true⟩ (.float (some ⟨15, 1⟩)) .nil

/-- A world whose environment sets `SCALE=NaN`. -/
def nanWorld : World (Option Dec) :=
  { proc := freshProc (Option Dec), args := [],
    env := fun name => if name = "SCALE" then "NaN" else "",
    files := fun _ => .unreadable }

/-- A factory whose struct has a described leaf `Address` and an unexported
leaf `port`. -/
def unexportedDefaults : Unit → Rec Dec := fun _ =>
  .leaf ⟨"Address", "address", some "address to listen on", true⟩ (.str "localhost") <|
  .leaf ⟨"port", "port", none, false⟩ (.int 80) .nil

/-- A fresh process with an empty command line, no snapshot file and
`PORT=8080` in the environment. -/
def portWorld : World Dec :=
  { proc := freshProc Dec, args := [], env := fun name => if name = "PORT" then "8080" else "",
    files := fun _ => .unreadable }

/-- The world `fullWorld` inside a test binary: the switch `test.v` of the
package `testing` is defined on `flag.CommandLine` before the load. -/
def testBinaryWorld : World Dec :=
  { proc := { formal := [⟨"test.v", "verbose: print additional output", .bool false,
                          .bool false⟩],
              flagValues := [] },
    args := ["-int-field-2=7", "-string-field-2", "from cli"],
    env := testEnv, files := fun _ => .doc snapshotDoc }

section Lemmas

variable {F : Type}

/-! ## Leaves and derived names -/

theorem chain_ne_nil (r : Rec F) : ∀ l ∈ leaves r, l.chain ≠ [] := by
  induction r with
  | nil => simp [leaves]
  | leaf m v rest ih =>
    intro l hl
    simp only [leaves, List.mem_cons] at hl
    rcases hl with rfl | hl
    · simp
    · exact ih l hl
  | sub m inner rest _ ihr =>
    intro l hl
    simp only [leaves, List.mem_append, List.mem_map] at hl
    rcases hl with ⟨a, _, rfl⟩ | hl
    · simp [Leaf.under]
    · exact ihr l hl

theorem joinWith_cons (sep a : String) (c : List String) (hc : c ≠ []) :
    joinWith sep (a :: c) = a ++ sep ++ joinWith sep c := by
  cases c with
  | nil => exact absurd rfl hc
  | cons b rest => rfl

theorem envPath_cons (h : Host F) (m : Meta) (c : List Meta) (hc : c ≠ []) :
    envPath h (m :: c) = h.toScreamingSnake m.name ++ "." ++ envPath h c := by
  unfold envPath
  rw [List.map_cons, joinWith_cons]
  simpa using hc

theorem kebabPath_cons (h : Host F) (m : Meta) (c : List Meta) (hc : c ≠ []) :
    kebabPath h (m :: c) = h.toKebab m.name ++ "-" ++ kebabPath h c := by
  unfold kebabPath
  rw [List.map_cons, joinWith_cons]
  simpa using hc

theorem kebab_root (h : Host F) (m : Meta) : kebabPath h [m] = h.toKebab m.name := rfl

/-- The value the code leaves agrees with the overlay as the specification
words it. -/
theorem envApply_eq (h : Host F) (v : String) (p : Prim F) :
    envApply h v p = match parseKind h v p with
      | some x => if v ≠ "" then x else p
      | none => p := by
  cases p with
  | str s => simp only [envApply, parseKind]
  | int i => simp only [envApply, parseKind]; cases Atoi v <;> simp
  | float f => simp only [envApply, parseKind]; cases h.parseFloat v <;> simp
  | bool b => simp only [envApply, parseKind]; cases ParseBool v <;> simp

/-- On an exported field a `case` never panics. -/
theorem envLeaf_exported (h : Host F) (m : Meta) (hm : m.exported = true) (v : String)
    (p : Prim F) : envLeaf h m v p = .ok (envApply h v p) := by
  cases p with
  | str s => simp only [envLeaf, envApply, setField, hm, if_true]; split <;> rfl
  | int i =>
    simp only [envLeaf, envApply, setField, hm, if_true]
    split
    · cases Atoi v <;> rfl
    · rfl
  | float f =>
    simp only [envLeaf, envApply, setField, hm, if_true]
    split
    · cases h.parseFloat v <;> rfl
    · rfl
  | bool b =>
    simp only [envLeaf, envApply, setField, hm, if_true]
    split
    · cases ParseBool v <;> rfl
    · rfl

/-- With the variable unset a `case` never panics and changes nothing. -/
theorem envLeaf_empty (h : Host F) (m : Meta) (p : Prim F) : envLeaf h m "" p = .ok p := by
  cases p <;> simp [envLeaf]

theorem envApply_empty (h : Host F) (p : Prim F) : envApply h "" p = p := by
  cases p <;> simp [envApply]

/-- A `case` that does not panic leaves the value `envApply`. -/
theorem envLeaf_ok (h : Host F) (m : Meta) (v : String) (p q : Prim F)
    (hq : envLeaf h m v p = .ok q) : q = envApply h v p := by
  cases hm : m.exported with
  | true =>
    rw [envLeaf_exported h m hm] at hq
    simp only [Except.ok.injEq] at hq
    exact hq.symm
  | false =>
    by_cases hv : v = ""
    · subst hv
      rw [envLeaf_empty, Except.ok.injEq] at hq
      rw [envApply_empty]
      exact hq.symm
    · cases p with
      | str s => simp [envLeaf, setField, hm, hv] at hq
      | int i =>
        cases hA : Atoi v with
        | none =>
          simp only [envLeaf, hA, ite_self, Except.ok.injEq] at hq
          simp only [envApply, hA, ite_self]
          exact hq.symm
        | some n => simp [envLeaf, setField, hm, hv, hA] at hq
      | float f =>
        cases hA : h.parseFloat v with
        | none =>
          simp only [envLeaf, hA, ite_self, Except.ok.injEq] at hq
          simp only [envApply, hA, ite_self]
          exact hq.symm
        | some n => simp [envLeaf, setField, hm, hv, hA] at hq
      | bool b =>
        cases hA : ParseBool v with
        | none =>
          simp only [envLeaf, hA, ite_self, Except.ok.injEq] at hq
          simp only [envApply, hA, ite_self]
          exact hq.symm
        | some n => simp [envLeaf, setField, hm, hv, hA] at hq

/-- The leaves after an environment layer that completes, for any name
prefix. -/
theorem leaves_readConfigFromEnv (h : Host F) (env : String → String) (r : Rec F) :
    ∀ pre r1, readConfigFromEnv h env pre r = .ok r1 →
      leaves r1 = (leaves r).map fun l =>
        { chain := l.chain, value := envApply h (env (pre ++ envPath h l.chain)) l.value } := by
  induction r with
  | nil =>
    intro pre r1 hr
    simp only [readConfigFromEnv, Except.ok.injEq] at hr
    rw [← hr]
    rfl
  | leaf m v rest ih =>
    intro pre r1 hr
    simp only [readConfigFromEnv] at hr
    split at hr
    · exact absurd hr (by simp)
    · rename_i v1 hv1
      cases hrest : readConfigFromEnv h env pre rest with
      | error e => rw [hrest] at hr; simp [Except.map] at hr
      | ok rest1 =>
        rw [hrest] at hr
        simp only [Except.map, Except.ok.injEq] at hr
        rw [← hr]
        simp only [leaves, List.map_cons, ih pre rest1 hrest, envLeaf_ok h m _ v v1 hv1]
        rfl
  | sub m inner rest ihi ihr =>
    intro pre r1 hr
    simp only [readConfigFromEnv] at hr
    split at hr
    · split at hr
      · exact absurd hr (by simp)
      · rename_i inner1 hin
        cases hrest : readConfigFromEnv h env pre rest with
        | error e => rw [hrest] at hr; simp [Except.map] at hr
        | ok rest1 =>
          rw [hrest] at hr
          simp only [Except.map, Except.ok.injEq] at hr
          rw [← hr]
          simp only [leaves, List.map_append, List.map_map, ihi _ inner1 hin,
            ihr pre rest1 hrest]
          congr 1
          apply List.map_congr_left
          intro l hl
          simp only [Function.comp, Leaf.under]
          rw [envPath_cons h m l.chain (chain_ne_nil inner l hl)]
          simp [String.append_assoc]
    · exact absurd hr (by simp)

/-- On a struct whose fields are all exported the environment layer
completes. -/
theorem readConfigFromEnv_total (h : Host F) (env : String → String) (r : Rec F) :
    ∀ pre, r.allExported = true → ∃ r1, readConfigFromEnv h env pre r = .ok r1 := by
  induction r with
  | nil => intro pre _; exact ⟨.nil, rfl⟩
  | leaf m v rest ih =>
    intro pre hexp
    simp only [Rec.allExported, Bool.and_eq_true] at hexp
    obtain ⟨rest1, hrest⟩ := ih pre hexp.2
    simp only [readConfigFromEnv, envLeaf_exported h m hexp.1, hrest, Except.map]
    exact ⟨_, rfl⟩
  | sub m inner rest ihi ihr =>
    intro pre hexp
    simp only [Rec.allExported, Bool.and_eq_true] at hexp
    obtain ⟨rest1, hrest⟩ := ihr pre hexp.2
    obtain ⟨inner1, hin⟩ := ihi (pre ++ h.toScreamingSnake m.name ++ ".") hexp.1.2
    simp only [readConfigFromEnv, hexp.1.1, if_true, hin, hrest, Except.map]
    exact ⟨_, rfl⟩

theorem sig_leaf (m : Meta) (v : Prim F) (rest : Rec F) :
    sig (.leaf m v rest) = ([m], v.kind) :: sig rest := rfl

theorem sig_sub (m : Meta) (inner rest : Rec F) :
    sig (.sub m inner rest) = (sig inner).map (fun p => (m :: p.1, p.2)) ++ sig rest := by
  simp [sig, leaves, Leaf.under, Function.comp]

theorem kind_decodePrim (h : Host F) (j : Json) (v : Prim F) :
    (decodePrim h j v).kind = v.kind := by
  cases v <;> cases j <;> simp only [decodePrim] <;> try rfl
  · cases Atoi _ <;> rfl
  · cases h.parseFloat _ <;> rfl

theorem sig_updField (p : String → Bool) (onLeaf : Prim F → Prim F) (onSub : Rec F → Rec F)
    (hl : ∀ v, (onLeaf v).kind = v.kind) (hs : ∀ r, sig (onSub r) = sig r) (r : Rec F) :
    sig (updField p onLeaf onSub r) = sig r := by
  induction r with
  | nil => rfl
  | leaf m v rest ih =>
    simp only [updField]
    split
    · simp [sig_leaf, hl]
    · simp [sig_leaf, ih]
  | sub m inner rest _ ihr =>
    simp only [updField]
    split
    · simp [sig_sub, hs]
    · simp [sig_sub, ihr]

mutual
theorem sig_unmarshalObject (h : Host F) : ∀ (ms : Members) (r : Rec F),
    sig (unmarshalObject h ms r) = sig r
  | .nil, r => by simp [unmarshalObject]
  | .cons key val rest, r => by
    rw [unmarshalObject, sig_unmarshalObject h rest]
    exact sig_updField _ _ _ (kind_decodePrim h val) (fun inner => sig_decodeStruct h val inner) r
theorem sig_decodeStruct (h : Host F) : ∀ (j : Json) (r : Rec F),
    sig (decodeStruct h j r) = sig r
  | .obj ms, r => by rw [decodeStruct]; exact sig_unmarshalObject h ms r
  | .null, r => by simp [decodeStruct]
  | .bool _, r => by simp [decodeStruct]
  | .num _, r => by simp [decodeStruct]
  | .str _, r => by simp [decodeStruct]
  | .arr, r => by simp [decodeStruct]
end

theorem sig_Unmarshal (h : Host F) (j : Json) (r c : Rec F) (hc : Unmarshal h j r = some c) :
    sig c = sig r := by
  unfold Unmarshal at hc
  split at hc
  · exact absurd hc (by simp)
  · simp only [Option.some.injEq] at hc
    rw [← hc]
    exact sig_decodeStruct h _ r

theorem sig_loadFile (h : Host F) (file : FileState) (r c : Rec F)
    (hc : loadFile h file r = some c) : sig c = sig r := by
  unfold loadFile at hc
  split at hc
  · simp only [Option.some.injEq] at hc; rw [← hc]
  · simp only [Option.some.injEq] at hc; rw [← hc]
  · exact sig_Unmarshal h _ _ _ hc

theorem deref_eq (v fv val : Prim F) (hd : deref v fv = some val) :
    val = fv ∧ fv.kind = v.kind := by
  cases v <;> cases fv <;> simp only [deref, Option.some.injEq] at hd <;>
    first
    | exact ⟨hd.symm, rfl⟩
    | exact absurd hd (by simp)

theorem deref_some (v fv : Prim F) (hk : fv.kind = v.kind) : deref v fv = some fv := by
  cases v <;> cases fv <;> first | rfl | (simp only [Prim.kind] at hk; exact absurd hk (by decide))

theorem setField_ok (m : Meta) (val v1 : Prim F) (hs : setField m val = .ok v1) :
    v1 = val ∧ m.exported = true := by
  unfold setField at hs
  split at hs
  · rename_i hm
    simp only [Except.ok.injEq] at hs
    exact ⟨hs.symm, hm⟩
  · exact absurd hs (by simp)

theorem sig_readConfigFromFlag (h : Host F) (st : Proc F) (r : Rec F) :
    ∀ pre r1, readConfigFromFlag h st pre r = .ok r1 → sig r1 = sig r := by
  induction r with
  | nil =>
    intro pre r1 hr
    simp only [readConfigFromFlag, Except.ok.injEq] at hr
    rw [← hr]
  | leaf m v rest ih =>
    intro pre r1 hr
    simp only [readConfigFromFlag] at hr
    have key : ∀ (w : Prim F), w.kind = v.kind →
        Except.map (Rec.leaf m w) (readConfigFromFlag h st pre rest) = .ok r1 →
        sig r1 = sig (.leaf m v rest) := by
      intro w hw hm
      cases hrest : readConfigFromFlag h st pre rest with
      | error e => rw [hrest] at hm; simp [Except.map] at hm
      | ok rest1 =>
        rw [hrest] at hm
        simp only [Except.map, Except.ok.injEq] at hm
        rw [← hm, sig_leaf, sig_leaf, ih pre rest1 hrest, hw]
    split at hr
    · split at hr
      · exact absurd hr (by simp)
      · rename_i f _
        split at hr
        · exact absurd hr (by simp)
        · rename_i val hval
          split at hr
          · exact absurd hr (by simp)
          · rename_i v1 hv1
            obtain ⟨h1, h2⟩ := deref_eq v f.value val hval
            obtain ⟨h3, _⟩ := setField_ok m val v1 hv1
            exact key v1 (by rw [h3, h1, h2]) hr
    · exact key v rfl hr
  | sub m inner rest ihi ihr =>
    intro pre r1 hr
    simp only [readConfigFromFlag] at hr
    have key : ∀ (inner1 : Rec F), sig inner1 = sig inner →
        Except.map (Rec.sub m inner1) (readConfigFromFlag h st pre rest) = .ok r1 →
        sig r1 = sig (.sub m inner rest) := by
      intro inner1 hw hm
      cases hrest : readConfigFromFlag h st pre rest with
      | error e => rw [hrest] at hm; simp [Except.map] at hm
      | ok rest1 =>
        rw [hrest] at hm
        simp only [Except.map, Except.ok.injEq] at hm
        rw [← hm, sig_sub, sig_sub, ihr pre rest1 hrest, hw]
    split at hr
    · split at hr
      · split at hr
        · exact absurd hr (by simp)
        · rename_i inner1 hin
          exact key inner1 (ihi _ inner1 hin) hr
      · exact absurd hr (by simp)
    · exact key inner rfl hr

theorem kind_envApply (h : Host F) (v : String) (p : Prim F) :
    (envApply h v p).kind = p.kind := by
  cases p with
  | str s => simp only [envApply]; split <;> rfl
  | int i =>
    simp only [envApply]
    split
    · cases Atoi v <;> rfl
    · rfl
  | float f =>
    simp only [envApply]
    split
    · cases h.parseFloat v <;> rfl
    · rfl
  | bool b =>
    simp only [envApply]
    split
    · cases ParseBool v <;> rfl
    · rfl

theorem sig_readConfigFromEnv (h : Host F) (env : String → String) (pre : String)
    (r r1 : Rec F) (hr : readConfigFromEnv h env pre r = .ok r1) : sig r1 = sig r := by
  unfold sig
  rw [leaves_readConfigFromEnv h env r pre r1 hr, List.map_map]
  apply List.map_congr_left
  intro l _
  simp only [Function.comp, Prod.mk.injEq, true_and]
  exact kind_envApply h _ l.value

/-! ## The environment layer comes last -/

theorem parseKind_congr (h : Host F) (s : String) (a b : Prim F) (hk : a.kind = b.kind) :
    parseKind h s a = parseKind h s b := by
  cases a <;> cases b <;> first | rfl | (simp only [Prim.kind] at hk; exact absurd hk (by decide))

theorem leaf_of_sig (r c : Rec F) (hs : sig c = sig r) (k : Nat) (leaf : Leaf F)
    (hk : (leaves r)[k]? = some leaf) :
    ∃ l2, (leaves c)[k]? = some l2 ∧ l2.chain = leaf.chain ∧ l2.value.kind = leaf.value.kind := by
  have h1 : (sig c)[k]? = (sig r)[k]? := by rw [hs]
  simp only [sig, List.getElem?_map, hk, Option.map_some'] at h1
  cases hc : (leaves c)[k]? with
  | none => rw [hc] at h1; simp at h1
  | some l2 =>
    rw [hc] at h1
    simp only [Option.map_some', Option.some.injEq, Prod.mk.injEq] at h1
    exact ⟨l2, rfl, h1.1, h1.2⟩

/-- An environment layer that completes, at a leaf whose variable is set,
non-empty and parseable, for any struct of the same shape. -/
theorem env_sets_leaf (h : Host F) (env : String → String) (r c c3 : Rec F)
    (hs : sig c = sig r) (hrun : readConfigFromEnv h env "" c = .ok c3)
    (k : Nat) (leaf : Leaf F) (hk : (leaves r)[k]? = some leaf)
    (x : Prim F) (hset : env (envPath h leaf.chain) ≠ "")
    (hparse : parseKind h (env (envPath h leaf.chain)) leaf.value = some x) :
    (leaves c3)[k]? = some { chain := leaf.chain, value := x } := by
  obtain ⟨l2, hl2, hchain, hkind⟩ := leaf_of_sig r c hs k leaf hk
  rw [leaves_readConfigFromEnv h env c "" c3 hrun, List.getElem?_map, hl2]
  simp only [Option.map_some', Option.some.injEq, String.empty_append]
  rw [envApply_eq, hchain, parseKind_congr h _ _ _ hkind, hparse]
  simp [hset]

/-- The layers of a load that returns: registration, parsing, the file
layer, the copy-back of the switches and the environment layer all completed
one after the other, the instance is the result of the last one, and the
snapshot is its serialisation. -/
theorem ReadConfigWithSaver_ok (h : Host F) (createDefault : Unit → Rec F)
    (applicationName packageVersionString defaultConfigPath : String) (w : World F)
    (l : Loaded F)
    (hres : ReadConfigWithSaver h createDefault applicationName packageVersionString
      defaultConfigPath w = .ok l) :
    ∃ c2, sig c2 = sig (createDefault ()) ∧ readConfigFromEnv h w.env "" c2 = .ok l.config ∧
      MarshalIndent h l.config = some l.snapshot ∧ l.err = none := by
  unfold ReadConfigWithSaver at hres
  simp only at hres
  split at hres
  · exact absurd hres (by simp)
  · split at hres
    · exact absurd hres (by simp)
    · split at hres
      · exact absurd hres (by simp)
      · split at hres
        · exact absurd hres (by simp)
        · rename_i c1 hc1
          split at hres
          · exact absurd hres (by simp)
          · rename_i c2 hc2
            split at hres
            · exact absurd hres (by simp)
            · rename_i c3 hc3
              split at hres
              · exact absurd hres (by simp)
              · rename_i bytes hb
                simp only [Except.ok.injEq] at hres
                refine ⟨c2, ?_, ?_, ?_, ?_⟩
                · rw [sig_readConfigFromFlag h _ c1 _ c2 hc2]
                  exact sig_loadFile h _ _ _ hc1
                · rw [← hres]; exact hc3
                · rw [← hres]
                  simp only
                  unfold save at hb
                  split at hb
                  · exact absurd hb (by simp)
                  · rename_i b2 hb2
                    simp only [Except.ok.injEq] at hb
                    rw [hb2, hb]
                · rw [← hres]

/-! ## Registration of the switches -/

theorem defineAll_append (a b : List (Flag F)) : ∀ st : Proc F,
    defineAll (a ++ b) st = match defineAll a st with
      | .error e => .error e
      | .ok st1 => defineAll b st1 := by
  induction a with
  | nil => intro st; rfl
  | cons f fs ih =>
    intro st
    simp only [List.cons_append, defineAll]
    cases flagVar f.name f.value f.usage st.formal with
    | error e => rfl
    | ok fs1 => exact ih _

theorem help_under (m : Meta) (l : Leaf F) (hl : l.chain ≠ []) :
    (Leaf.under m l).help = l.help := by
  unfold Leaf.help Leaf.under
  cases hc : l.chain with
  | nil => exact absurd hc hl
  | cons a c => simp [List.getLast?_cons_cons]

theorem regs_leaf (h : Host F) (pre : String) (m : Meta) (v : Prim F) (rest : Rec F) :
    regs h pre (.leaf m v rest) =
      (if m.described then
        [{ name := pre ++ h.toKebab m.name, usage := m.description.getD "",
           defValue := v, value := v }]
       else []) ++ regs h pre rest := by
  unfold regs
  simp only [leaves, List.filter_cons, Leaf.exposed, List.all_cons, List.all_nil, Bool.and_true]
  cases m.described with
  | true => simp [switchAt, kebabPath, joinWith, Leaf.help]
  | false => simp

theorem regs_sub (h : Host F) (pre : String) (m : Meta) (inner rest : Rec F) :
    regs h pre (.sub m inner rest) =
      (if m.described then regs h (pre ++ h.toKebab m.name ++ "-") inner else [])
        ++ regs h pre rest := by
  unfold regs
  simp only [leaves, List.filter_append, List.map_append, List.filter_map, List.map_map]
  congr 1
  cases hm : m.described with
  | false =>
    simp only [Bool.false_eq_true, if_false, List.map_eq_nil_iff, List.filter_eq_nil_iff]
    intro l _
    simp [Leaf.exposed, Leaf.under, hm]
  | true =>
    simp only [if_true]
    have hf : (leaves inner).filter (Leaf.exposed ∘ Leaf.under m)
        = (leaves inner).filter Leaf.exposed := by
      apply List.filter_congr
      intro l _
      simp [Leaf.exposed, Leaf.under, hm]
    rw [hf]
    apply List.map_congr_left
    intro l hl
    have hne : l.chain ≠ [] := chain_ne_nil inner l (List.mem_of_mem_filter hl)
    simp only [Function.comp, switchAt, help_under m l hne]
    simp only [Leaf.under, kebabPath_cons h m l.chain hne, String.append_assoc]

theorem allExported_leaf (m : Meta) (v : Prim F) (rest : Rec F)
    (hx : (Rec.leaf m v rest).allExported = true) :
    m.exported = true ∧ rest.allExported = true := by
  simpa [Rec.allExported] using hx

theorem allExported_sub (m : Meta) (inner rest : Rec F)
    (hx : (Rec.sub m inner rest).allExported = true) :
    m.exported = true ∧ inner.allExported = true ∧ rest.allExported = true := by
  simpa [Rec.allExported, and_assoc] using hx

/-- The walk of `initFlagsByConfig` over a struct of exported fields defines
exactly the switches of the exposed leaves, in declaration order. -/
theorem initFlagsByConfig_eq (h : Host F) (r : Rec F) (hx : r.allExported = true) :
    ∀ (pre : String) (st : Proc F),
      initFlagsByConfig h pre r st = defineAll (regs h pre r) st := by
  induction r with
  | nil => intro pre st; rfl
  | leaf m v rest ih =>
    intro pre st
    have ih := ih (allExported_leaf m v rest hx).2
    rw [regs_leaf]
    unfold initFlagsByConfig
    cases hd : m.description with
    | none => simp only [Meta.described, hd, Bool.false_eq_true, if_false, List.nil_append]; exact ih pre st
    | some tag =>
      by_cases ht : tag = ""
      · simp only [Meta.described, hd, ht, ne_eq, not_true_eq_false, decide_False,
          Bool.false_eq_true, if_false, List.nil_append]
        exact ih pre st
      · simp only [Meta.described, hd, ne_eq, ht, not_false_eq_true, decide_True, if_true,
          List.singleton_append, defineAll, Option.getD_some]
        cases flagVar (pre ++ h.toKebab m.name) v tag st.formal with
        | error e => rfl
        | ok fs => exact ih pre _
  | sub m inner rest ihi ihr =>
    intro pre st
    obtain ⟨hm, hxi, hxr⟩ := allExported_sub m inner rest hx
    have ihi := ihi hxi
    have ihr := ihr hxr
    rw [regs_sub, defineAll_append]
    unfold initFlagsByConfig
    cases hd : m.description with
    | none => simp only [Meta.described, hd, Bool.false_eq_true, if_false, defineAll]; exact ihr pre st
    | some tag =>
      by_cases ht : tag = ""
      · simp only [Meta.described, hd, ht, ne_eq, not_true_eq_false, decide_False,
          Bool.false_eq_true, if_false, defineAll]
        exact ihr pre st
      · simp only [Meta.described, hd, ne_eq, ht, not_false_eq_true, decide_True, if_true, hm]
        rw [ihi]
        cases defineAll (regs h (pre ++ h.toKebab m.name ++ "-") inner) st with
        | error e => rfl
        | ok st1 => exact ihr pre st1

/-- A walk of `initFlagsByConfig` that completes has defined exactly the
switches of the exposed leaves, in declaration order. -/
theorem initFlagsByConfig_ok (h : Host F) (r : Rec F) :
    ∀ (pre : String) (st st1 : Proc F), initFlagsByConfig h pre r st = .ok st1 →
      defineAll (regs h pre r) st = .ok st1 := by
  induction r with
  | nil => intro pre st st1 hi; exact hi
  | leaf m v rest ih =>
    intro pre st st1 hi
    rw [regs_leaf]
    unfold initFlagsByConfig at hi
    cases hd : m.description with
    | none =>
      rw [hd] at hi
      simp only [Meta.described, hd, Bool.false_eq_true, if_false, List.nil_append]
      exact ih pre st st1 hi
    | some tag =>
      rw [hd] at hi
      by_cases ht : tag = ""
      · simp only [ht, ne_eq, not_true_eq_false, if_false] at hi
        simp only [Meta.described, hd, ht, ne_eq, not_true_eq_false, decide_False,
          Bool.false_eq_true, if_false, List.nil_append]
        exact ih pre st st1 hi
      · simp only [ne_eq, ht, not_false_eq_true, if_true] at hi
        simp only [Meta.described, hd, ne_eq, ht, not_false_eq_true, decide_True, if_true,
          List.singleton_append, defineAll, Option.getD_some]
        cases hf : flagVar (pre ++ h.toKebab m.name) v tag st.formal with
        | error e => rw [hf] at hi; exact absurd hi (by simp)
        | ok fs =>
          rw [hf] at hi
          exact ih pre _ st1 hi
  | sub m inner rest ihi ihr =>
    intro pre st st1 hi
    rw [regs_sub, defineAll_append]
    unfold initFlagsByConfig at hi
    cases hd : m.description with
    | none =>
      rw [hd] at hi
      simp only [Meta.described, hd, Bool.false_eq_true, if_false, defineAll]
      exact ihr pre st st1 hi
    | some tag =>
      rw [hd] at hi
      by_cases ht : tag = ""
      · simp only [ht, ne_eq, not_true_eq_false, if_false] at hi
        simp only [Meta.described, hd, ht, ne_eq, not_true_eq_false, decide_False,
          Bool.false_eq_true, if_false, defineAll]
        exact ihr pre st st1 hi
      · simp only [ne_eq, ht, not_false_eq_true, if_true] at hi
        simp only [Meta.described, hd, ne_eq, ht, not_false_eq_true, decide_True, if_true]
        by_cases hm : m.exported = true
        · simp only [hm, if_true] at hi
          cases hin : initFlagsByConfig h (pre ++ h.toKebab m.name ++ "-") inner st with
          | error e => rw [hin] at hi; exact absurd hi (by simp)
          | ok st2 =>
            rw [hin] at hi
            rw [ihi _ st st2 hin]
            exact ihr pre st2 st1 hi
        · simp only [hm, if_false] at hi
          exact absurd hi (by simp)

theorem lookupFlag_none (fs : List (Flag F)) (n : String) :
    lookupFlag fs n = none ↔ n ∉ fs.map Flag.name := by
  unfold lookupFlag
  simp only [List.find?_eq_none, decide_eq_true_eq, List.mem_map, not_exists, not_and]

theorem flagVar_ok (f : Flag F) (hf : f.defValue = f.value) (fs : List (Flag F))
    (hn : f.name ∉ fs.map Flag.name) : flagVar f.name f.value f.usage fs = .ok (f :: fs) := by
  unfold flagVar
  rw [(lookupFlag_none fs f.name).mpr hn]
  cases f
  simp only at hf
  simp [hf]

theorem flagVar_inv (n u : String) (v : Prim F) (fs fs1 : List (Flag F))
    (hv : flagVar n v u fs = .ok fs1) :
    n ∉ fs.map Flag.name ∧ fs1 = { name := n, usage := u, defValue := v, value := v } :: fs := by
  unfold flagVar at hv
  split at hv
  · exact absurd hv (by simp)
  · rename_i hnone
    simp only [Except.ok.injEq] at hv
    exact ⟨(lookupFlag_none fs n).mp hnone, hv.symm⟩

/-- What a completed run of definitions leaves behind, and what its
completion says about the names. -/
theorem defineAll_ok (fs : List (Flag F)) (hwf : ∀ f ∈ fs, f.defValue = f.value) :
    ∀ st st1 : Proc F, defineAll fs st = .ok st1 →
      st1.formal = fs.reverse ++ st.formal ∧
      st1.flagValues = (fs.map Flag.name).reverse ++ st.flagValues ∧
      (fs.map Flag.name).Nodup ∧ ∀ f ∈ fs, f.name ∉ st.formal.map Flag.name := by
  induction fs with
  | nil =>
    intro st st1 hd
    simp only [defineAll, Except.ok.injEq] at hd
    subst hd
    simp
  | cons f fs ih =>
    intro st st1 hd
    simp only [defineAll] at hd
    split at hd
    · exact absurd hd (by simp)
    · rename_i fs1 hv
      obtain ⟨hn, hfs1⟩ := flagVar_inv _ _ _ _ _ hv
      obtain ⟨h1, h2, h3, h4⟩ := ih (fun g hg => hwf g (List.mem_cons_of_mem _ hg)) _ _ hd
      have hff : ({ name := f.name, usage := f.usage, defValue := f.value, value := f.value }
          : Flag F) = f := by
        have := hwf f (List.mem_cons_self _ _)
        cases f
        simp only at this
        simp [this]
      subst hfs1
      rw [hff] at h1 h4
      refine ⟨?_, ?_, ?_, ?_⟩
      · rw [h1]; simp
      · rw [h2]; simp
      · rw [List.map_cons, List.nodup_cons]
        refine ⟨?_, h3⟩
        intro hmem
        obtain ⟨g, hg, hgn⟩ := List.mem_map.mp hmem
        apply h4 g hg
        simp [hgn]
      · intro g hg
        rcases List.mem_cons.mp hg with rfl | hg
        · exact hn
        · intro hmem
          apply h4 g hg
          simp only [List.map_cons, List.mem_cons]
          exact Or.inr hmem

/-- Definitions of fresh, pairwise distinct names all complete. -/
theorem defineAll_succeeds (fs : List (Flag F)) (hwf : ∀ f ∈ fs, f.defValue = f.value) :
    ∀ st : Proc F, (fs.map Flag.name).Nodup → (∀ f ∈ fs, f.name ∉ st.formal.map Flag.name) →
      ∃ st1, defineAll fs st = .ok st1 := by
  induction fs with
  | nil => intro st _ _; exact ⟨st, rfl⟩
  | cons f fs ih =>
    intro st hnd hfresh
    simp only [defineAll]
    rw [flagVar_ok f (hwf f (List.mem_cons_self _ _)) st.formal (hfresh f (List.mem_cons_self _ _))]
    simp only
    rw [List.map_cons, List.nodup_cons] at hnd
    apply ih (fun g hg => hwf g (List.mem_cons_of_mem _ hg)) _ hnd.2
    intro g hg
    simp only [List.map_cons, List.mem_cons, not_or]
    refine ⟨?_, hfresh g (List.mem_cons_of_mem _ hg)⟩
    intro heq
    apply hnd.1
    rw [← heq]
    exact List.mem_map_of_mem _ hg

theorem regs_wf (h : Host F) (pre : String) (r : Rec F) :
    ∀ f ∈ regs h pre r, f.defValue = f.value := by
  intro f hf
  unfold regs at hf
  obtain ⟨l, _, rfl⟩ := List.mem_map.mp hf
  rfl

theorem filter_name_of_nodup (fs : List (Flag F)) (hnd : (fs.map Flag.name).Nodup)
    (f : Flag F) (hf : f ∈ fs) : fs.filter (fun g => g.name = f.name) = [f] := by
  induction fs with
  | nil => exact absurd hf (by simp)
  | cons a fs ih =>
    rw [List.map_cons, List.nodup_cons] at hnd
    rcases List.mem_cons.mp hf with rfl | hmem
    · rw [List.filter_cons]
      simp only [decide_True, if_true, List.cons.injEq, true_and, List.filter_eq_nil_iff,
        decide_eq_true_eq]
      intro g hg heq
      apply hnd.1
      rw [← heq]
      exact List.mem_map_of_mem _ hg
    · rw [List.filter_cons]
      have hne : a.name ≠ f.name := by
        intro heq
        apply hnd.1
        rw [heq]
        exact List.mem_map_of_mem _ hmem
      simp only [hne, decide_False, Bool.false_eq_true, if_false]
      exact ih hnd.2 hmem

/-! ## The copy-back of the switches -/

/-- When every leaf the walk reaches under a recorded name finds a switch of
the leaf's kind, `readConfigFromFlag` completes on a struct of exported
fields. -/
theorem readConfigFromFlag_total (h : Host F) (st : Proc F) (r : Rec F)
    (hx : r.allExported = true) :
    ∀ pre, (∀ l ∈ leaves r, pre ++ kebabPath h l.chain ∈ st.flagValues →
        ∃ f, lookupFlag st.formal (pre ++ kebabPath h l.chain) = some f ∧
          f.value.kind = l.value.kind) →
      ∃ r1, readConfigFromFlag h st pre r = .ok r1 := by
  induction r with
  | nil => intro pre _; exact ⟨.nil, rfl⟩
  | leaf m v rest ih =>
    intro pre hfit
    obtain ⟨hm, hxr⟩ := allExported_leaf m v rest hx
    obtain ⟨rest1, hrest⟩ := ih hxr pre (fun l hl => hfit l (by simp [leaves, hl]))
    simp only [readConfigFromFlag, hrest, Except.map]
    split
    · rename_i hmem
      obtain ⟨f, hf, hv⟩ := hfit { chain := [m], value := v } (by simp [leaves])
        (by rw [kebab_root]; exact hmem)
      rw [kebab_root] at hf
      simp only at hv
      rw [hf]
      simp only [deref_some v f.value hv, setField, hm, if_true]
      exact ⟨_, rfl⟩
    · exact ⟨_, rfl⟩
  | sub m inner rest ihi ihr =>
    intro pre hfit
    obtain ⟨hm, hxi, hxr⟩ := allExported_sub m inner rest hx
    obtain ⟨rest1, hrest⟩ := ihr hxr pre (fun l hl => hfit l (by simp [leaves, hl]))
    obtain ⟨inner1, hinner⟩ := ihi hxi (pre ++ h.toKebab m.name ++ "-") (by
      intro l hl hmem
      have hne := chain_ne_nil inner l hl
      have hname : pre ++ kebabPath h (Leaf.under m l).chain
          = pre ++ h.toKebab m.name ++ "-" ++ kebabPath h l.chain := by
        simp only [Leaf.under, kebabPath_cons h m l.chain hne, String.append_assoc]
      have := hfit (Leaf.under m l) (by
        simp only [leaves, List.mem_append, List.mem_map]
        exact Or.inl ⟨l, hl, rfl⟩) (by rw [hname]; exact hmem)
      rw [hname] at this
      exact this)
    simp only [readConfigFromFlag, hrest, hinner, Except.map, hm, if_true]
    split <;> exact ⟨_, rfl⟩

/-! ## The layers keep the fields exported -/

theorem allExported_updField (p : String → Bool) (onLeaf : Prim F → Prim F)
    (onSub : Rec F → Rec F) (hs : ∀ r, (onSub r).allExported = r.allExported) (r : Rec F) :
    (updField p onLeaf onSub r).allExported = r.allExported := by
  induction r with
  | nil => rfl
  | leaf m v rest ih =>
    simp only [updField]
    split
    · rfl
    · simp only [Rec.allExported, ih]
  | sub m inner rest _ ihr =>
    simp only [updField]
    split
    · simp only [Rec.allExported, hs]
    · simp only [Rec.allExported, ihr]

mutual
theorem allExported_unmarshalObject (h : Host F) : ∀ (ms : Members) (r : Rec F),
    (unmarshalObject h ms r).allExported = r.allExported
  | .nil, r => by simp [unmarshalObject]
  | .cons key val rest, r => by
    rw [unmarshalObject, allExported_unmarshalObject h rest]
    exact allExported_updField _ _ _ (fun inner => allExported_decodeStruct h val inner) r
theorem allExported_decodeStruct (h : Host F) : ∀ (j : Json) (r : Rec F),
    (decodeStruct h j r).allExported = r.allExported
  | .obj ms, r => by rw [decodeStruct]; exact allExported_unmarshalObject h ms r
  | .null, r => by simp [decodeStruct]
  | .bool _, r => by simp [decodeStruct]
  | .num _, r => by simp [decodeStruct]
  | .str _, r => by simp [decodeStruct]
  | .arr, r => by simp [decodeStruct]
end

theorem allExported_loadFile (h : Host F) (file : FileState) (r c : Rec F)
    (hc : loadFile h file r = some c) : c.allExported = r.allExported := by
  unfold loadFile at hc
  split at hc
  · simp only [Option.some.injEq] at hc; rw [← hc]
  · simp only [Option.some.injEq] at hc; rw [← hc]
  · unfold Unmarshal at hc
    split at hc
    · exact absurd hc (by simp)
    · simp only [Option.some.injEq] at hc
      rw [← hc]
      exact allExported_decodeStruct h _ r

/-- The file layer yields an instance for every file state but the document
`null`. -/
theorem loadFile_some (h : Host F) (file : FileState) (r : Rec F) (hf : file ≠ .doc .null) :
    ∃ c, loadFile h file r = some c := by
  cases file with
  | unreadable => exact ⟨_, rfl⟩
  | malformed => exact ⟨_, rfl⟩
  | doc j =>
    cases j with
    | null => exact absurd rfl hf
    | bool b => exact ⟨_, rfl⟩
    | num n => exact ⟨_, rfl⟩
    | str t => exact ⟨_, rfl⟩
    | arr => exact ⟨_, rfl⟩
    | obj ms => exact ⟨_, rfl⟩

theorem allExported_readConfigFromFlag (h : Host F) (st : Proc F) (r : Rec F) :
    ∀ pre r1, readConfigFromFlag h st pre r = .ok r1 → r1.allExported = r.allExported := by
  induction r with
  | nil =>
    intro pre r1 hr
    simp only [readConfigFromFlag, Except.ok.injEq] at hr
    rw [← hr]
  | leaf m v rest ih =>
    intro pre r1 hr
    simp only [readConfigFromFlag] at hr
    have key : ∀ (w : Prim F),
        Except.map (Rec.leaf m w) (readConfigFromFlag h st pre rest) = .ok r1 →
        r1.allExported = (Rec.leaf m v rest).allExported := by
      intro w hm
      cases hrest : readConfigFromFlag h st pre rest with
      | error e => rw [hrest] at hm; simp [Except.map] at hm
      | ok rest1 =>
        rw [hrest] at hm
        simp only [Except.map, Except.ok.injEq] at hm
        rw [← hm]
        simp only [Rec.allExported, ih pre rest1 hrest]
    split at hr
    · split at hr
      · exact absurd hr (by simp)
      · split at hr
        · exact absurd hr (by simp)
        · split at hr
          · exact absurd hr (by simp)
          · rename_i v1 _
            exact key v1 hr
    · exact key v hr
  | sub m inner rest ihi ihr =>
    intro pre r1 hr
    simp only [readConfigFromFlag] at hr
    have key : ∀ (inner1 : Rec F), inner1.allExported = inner.allExported →
        Except.map (Rec.sub m inner1) (readConfigFromFlag h st pre rest) = .ok r1 →
        r1.allExported = (Rec.sub m inner rest).allExported := by
      intro inner1 hw hm
      cases hrest : readConfigFromFlag h st pre rest with
      | error e => rw [hrest] at hm; simp [Except.map] at hm
      | ok rest1 =>
        rw [hrest] at hm
        simp only [Except.map, Except.ok.injEq] at hm
        rw [← hm]
        simp only [Rec.allExported, ihr pre rest1 hrest, hw]
    split at hr
    · split at hr
      · split at hr
        · exact absurd hr (by simp)
        · rename_i inner1 hin
          exact key inner1 (ihi _ inner1 hin) hr
      · exact absurd hr (by simp)
    · exact key inner rfl hr

/-! ## A first load -/

theorem flagVar_config (path : String) (old : List (Flag F))
    (hold : "config" ∉ old.map Flag.name) :
    flagVar "config" (.str path : Prim F) "path to config" old =
      .ok (configFlag path :: old) := by
  unfold flagVar
  rw [(lookupFlag_none old "config").mpr hold]
  rfl

theorem regs_names_sub (h : Host F) (r : Rec F) :
    ∀ n ∈ (regs h "" r).map Flag.name, n ∈ (leaves r).map fun l => kebabPath h l.chain := by
  intro n hn
  obtain ⟨f, hf, rfl⟩ := List.mem_map.mp hn
  unfold regs at hf
  obtain ⟨l, hl, rfl⟩ := List.mem_map.mp hf
  simp only [switchAt, String.empty_append]
  exact List.mem_map_of_mem _ (List.mem_of_mem_filter hl)

theorem regs_names_nodup (h : Host F) (r : Rec F)
    (hnd : ((leaves r).map fun l => kebabPath h l.chain).Nodup) :
    ((regs h "" r).map Flag.name).Nodup := by
  have hsub : List.Sublist ((regs h "" r).map Flag.name)
      ((leaves r).map fun l => kebabPath h l.chain) := by
    unfold regs
    rw [List.map_map]
    have hfun : (Flag.name ∘ switchAt h "") = fun l : Leaf F => kebabPath h l.chain := by
      funext l
      simp [switchAt]
    rw [hfun]
    exact List.Sublist.map _ (List.filter_sublist _)
  exact List.Nodup.sublist hsub hnd

theorem config_not_registered (h : Host F) (r : Rec F)
    (hconfig : ∀ l ∈ leaves r, l.exposed = true → kebabPath h l.chain ≠ "config") :
    "config" ∉ (regs h "" r).map Flag.name := by
  intro hmem
  obtain ⟨f, hf, hname⟩ := List.mem_map.mp hmem
  unfold regs at hf
  obtain ⟨l, hl, rfl⟩ := List.mem_map.mp hf
  simp only [switchAt, String.empty_append] at hname
  exact hconfig l (List.mem_of_mem_filter hl) (List.mem_filter.mp hl).2 hname

/-- No switch of an exposed leaf is defined yet when neither `config` nor
any switch defined before the load has the kebab path of an exposed leaf. -/
theorem regs_free (h : Host F) (r : Rec F) (cfg : Flag F) (hcfg : cfg.name = "config")
    (old : List (Flag F))
    (hconfig : ∀ l ∈ leaves r, l.exposed = true → kebabPath h l.chain ≠ "config")
    (hold : ∀ g ∈ old, ∀ l ∈ leaves r, l.exposed = true → g.name ≠ kebabPath h l.chain) :
    ∀ f ∈ regs h "" r, f.name ∉ (cfg :: old).map Flag.name := by
  intro f hf hmem
  unfold regs at hf
  obtain ⟨l, hl, rfl⟩ := List.mem_map.mp hf
  simp only [switchAt, String.empty_append] at hmem
  have hlm := List.mem_of_mem_filter hl
  have hle := (List.mem_filter.mp hl).2
  rcases List.mem_map.mp hmem with ⟨g, hg, hgn⟩
  rcases List.mem_cons.mp hg with rfl | hgo
  · rw [hcfg] at hgn
    exact hconfig l hlm hle hgn.symm
  · exact hold g hgo l hlm hle hgn

/-- Registration on a first load completes when all fields are exported, the
kebab paths of the leaves are pairwise distinct and no switch of an exposed
leaf is defined yet. -/
theorem init_first (h : Host F) (r : Rec F) (hx : r.allExported = true)
    (base : List (Flag F))
    (huniq : ((leaves r).map fun l => kebabPath h l.chain).Nodup)
    (hfree : ∀ f ∈ regs h "" r, f.name ∉ base.map Flag.name) :
    initFlagsByConfig h "" r { formal := base, flagValues := [] } =
      .ok { formal := (regs h "" r).reverse ++ base,
            flagValues := ((regs h "" r).map Flag.name).reverse } := by
  obtain ⟨st1, hst1⟩ := defineAll_succeeds (regs h "" r) (regs_wf h "" r)
    { formal := base, flagValues := [] } (regs_names_nodup h r huniq) hfree
  obtain ⟨h1, h2, _, _⟩ := defineAll_ok _ (regs_wf h "" r) _ st1 hst1
  rw [initFlagsByConfig_eq h r hx, hst1]
  cases st1
  simp only at h1 h2
  simp [h1, h2]

/-- After such a registration every leaf whose kebab path is recorded in
`flagValues` finds the switch defined from its own value. -/
theorem lookup_registered (h : Host F) (r : Rec F) (base : List (Flag F))
    (huniq : ((leaves r).map fun l => kebabPath h l.chain).Nodup)
    (l : Leaf F) (hl : l ∈ leaves r)
    (hmem : "" ++ kebabPath h l.chain ∈ ((regs h "" r).map Flag.name).reverse) :
    ∃ f, lookupFlag ((regs h "" r).reverse ++ base) ("" ++ kebabPath h l.chain) = some f ∧
      f.value = l.value := by
  rw [String.empty_append] at hmem ⊢
  cases hfind : lookupFlag (regs h "" r).reverse (kebabPath h l.chain) with
  | none =>
    exfalso
    have := (lookupFlag_none _ _).mp hfind
    apply this
    rw [List.map_reverse]
    exact hmem
  | some f =>
    refine ⟨f, ?_, ?_⟩
    · unfold lookupFlag at hfind ⊢
      rw [List.find?_append, hfind]
      rfl
    · unfold lookupFlag at hfind
      have hname : f.name = kebabPath h l.chain := by
        simpa using List.find?_some hfind
      have hreg := List.mem_reverse.mp (List.mem_of_find?_eq_some hfind)
      unfold regs at hreg
      obtain ⟨o, ho, rfl⟩ := List.mem_map.mp hreg
      simp only [switchAt, String.empty_append] at hname
      have : o = l := List.inj_on_of_nodup_map huniq (List.mem_of_mem_filter ho) hl hname
      rw [← this]
      rfl

theorem setFlag_key (h : Host F) (f g : Flag F) (v : String) (hs : setFlag h f v = some g) :
    flagKey g = flagKey f := by
  unfold setFlag at hs
  cases hv : f.value with
  | str s =>
    rw [hv] at hs
    simp only [Option.some.injEq] at hs
    rw [← hs]; simp [flagKey, hv, Prim.kind]
  | int i =>
    rw [hv] at hs
    cases hp : h.parseIntFlag v with
    | none => rw [hp] at hs; simp at hs
    | some n =>
      rw [hp] at hs
      simp only [Option.map_some', Option.some.injEq] at hs
      rw [← hs]; simp [flagKey, hv, Prim.kind]
  | float x =>
    rw [hv] at hs
    cases hp : h.parseFloat v with
    | none => rw [hp] at hs; simp at hs
    | some n =>
      rw [hp] at hs
      simp only [Option.map_some', Option.some.injEq] at hs
      rw [← hs]; simp [flagKey, hv, Prim.kind]
  | bool b =>
    rw [hv] at hs
    cases hp : ParseBool v with
    | none => rw [hp] at hs; simp at hs
    | some n =>
      rw [hp] at hs
      simp only [Option.map_some', Option.some.injEq] at hs
      rw [← hs]; simp [flagKey, hv, Prim.kind]

theorem lookupFlag_name (fs : List (Flag F)) (n : String) (f : Flag F)
    (hf : lookupFlag fs n = some f) : f.name = n := by
  unfold lookupFlag at hf
  simpa using List.find?_some hf

theorem putFlag_key (g f : Flag F) (hk : flagKey g = flagKey f) :
    ∀ fs : List (Flag F), lookupFlag fs g.name = some f →
      (putFlag fs g).map flagKey = fs.map flagKey := by
  intro fs
  induction fs with
  | nil => intro _; rfl
  | cons e fs ih =>
    intro hl
    unfold lookupFlag at hl
    rw [List.find?_cons] at hl
    by_cases he : e.name = g.name
    · simp only [he, decide_True, Option.some.injEq] at hl
      simp only [putFlag, he, if_true, List.map_cons, List.cons.injEq, and_true]
      rw [hk, hl]
    · simp only [he, decide_False] at hl
      simp only [putFlag, he, if_false, List.map_cons, List.cons.injEq, true_and]
      exact ih hl

theorem parseArgs_key (h : Host F) (args : List String) :
    ∀ (fs : List (Flag F)) (pending : Option (Flag F)) (fs2 : List (Flag F)),
      (∀ f, pending = some f → lookupFlag fs f.name = some f) →
      parseArgs h fs pending args = .ok fs2 → fs2.map flagKey = fs.map flagKey := by
  induction args with
  | nil =>
    intro fs pending fs2 _ hp
    cases pending with
    | none => simp only [parseArgs, Except.ok.injEq] at hp; rw [hp]
    | some f => simp [parseArgs] at hp
  | cons s rest ih =>
    intro fs pending fs2 hpend hp
    have step : ∀ (f g : Flag F), lookupFlag fs f.name = some f → flagKey g = flagKey f →
        parseArgs h (putFlag fs g) none rest = .ok fs2 → fs2.map flagKey = fs.map flagKey := by
      intro f g hl hk hrec
      have hname : g.name = f.name := congrArg Prod.fst hk
      rw [ih _ none fs2 (fun _ hx => absurd hx (by simp)) hrec]
      exact putFlag_key g f hk fs (by rw [hname]; exact hl)
    cases pending with
    | some f =>
      simp only [parseArgs] at hp
      split at hp
      · exact absurd hp (by simp)
      · rename_i g hg
        exact step f g (hpend f rfl) (setFlag_key h f g s hg) hp
    | none =>
      simp only [parseArgs] at hp
      split at hp
      · rename_i c cs _
        split at hp
        · simp only [Except.ok.injEq] at hp; rw [hp]
        · split at hp
          · exact absurd hp (by simp)
          · rename_i b bs _
            split at hp
            · exact absurd hp (by simp)
            · split at hp
              · exact absurd hp (by simp)
              · rename_i f hf
                have hself : lookupFlag fs f.name = some f := by
                  rw [lookupFlag_name fs _ f hf]; exact hf
                split at hp
                · rename_i v hfv _
                  split at hp
                  · exact absurd hp (by simp)
                  · rename_i g hg
                    exact step f g hself (setFlag_key h f g _ hg) hp
                · rename_i hfv _
                  exact step f _ hself (by simp [flagKey, hfv, Prim.kind]) hp
                · split at hp
                  · exact absurd hp (by simp)
                  · rename_i g hg
                    exact step f g hself (setFlag_key h f g _ hg) hp
                · exact ih fs (some f) fs2
                    (fun g hg => by simp only [Option.some.injEq] at hg; rw [← hg]; exact hself) hp
      · simp only [Except.ok.injEq] at hp; rw [hp]

theorem lookup_sim (n : String) : ∀ (fs fs2 : List (Flag F)) (f : Flag F),
    fs2.map flagKey = fs.map flagKey → lookupFlag fs n = some f →
      ∃ f2, lookupFlag fs2 n = some f2 ∧ f2.value.kind = f.value.kind := by
  intro fs
  induction fs with
  | nil => intro fs2 f _ hl; simp [lookupFlag] at hl
  | cons e fs ih =>
    intro fs2 f hk hl
    cases fs2 with
    | nil => simp at hk
    | cons e2 fs2 =>
      simp only [List.map_cons, List.cons.injEq] at hk
      have hname : e2.name = e.name := congrArg Prod.fst hk.1
      have hkind : e2.value.kind = e.value.kind := congrArg Prod.snd hk.1
      unfold lookupFlag at hl ⊢
      rw [List.find?_cons] at hl ⊢
      by_cases he : e.name = n
      · simp only [he, decide_True, Option.some.injEq] at hl
        simp only [hname, he, decide_True]
        exact ⟨e2, rfl, by rw [hkind, hl]⟩
      · simp only [he, decide_False] at hl
        simp only [hname, he, decide_False]
        exact ih fs2 f hk.2 hl

/-! ## The dump -/

theorem unlines_append (a b : List String) : unlines (a ++ b) = unlines a ++ unlines b := by
  induction a with
  | nil => simp [unlines]
  | cons x a ih =>
    rw [List.cons_append, unlines, unlines, ih]
    simp only [String.append_assoc]

theorem indent_length (d : Nat) : (indent d).length = 3 * d := by
  simp [indent, String.length]

theorem indent_succ (d : Nat) : indent d ++ "   " = indent (d + 1) := by
  unfold indent
  apply String.ext
  simp only [String.data_append]
  have : 3 * (d + 1) = 3 * d + 3 := by ring
  rw [this, List.replicate_add]
  rfl

theorem fmtWidth_indent (d : Nat) :
    fmtWidth (25 - ((indent d).length : Int)) = widthActual (indent d).length := rfl

/-- Up to an indent of 25 characters, that is up to eight levels of nesting,
the width the code pads to is 25 minus the length of the indent. -/
theorem widthActual_le (n : Nat) (hn : n ≤ 25) : widthActual n = widthClaimed n := by
  unfold widthActual widthClaimed
  omega

/-- The loop of `printConfig` at the indent of depth `d`, over a struct of
exported fields that stays within eight levels of nesting, writes the lines
of the dump from depth `d` on. -/
theorem printFields_eq (h : Host F) (r : Rec F) : ∀ d, r.allExported = true →
    d + r.depth ≤ 8 →
    printFields h (indent d) r = .ok (unlines (dumpLines h widthClaimed d r)) := by
  induction r with
  | nil => intro d _ _; rfl
  | leaf m v rest ih =>
    intro d hx hd
    obtain ⟨hm, hxr⟩ := allExported_leaf m v rest hx
    have hw : widthActual (indent d).length = widthClaimed (indent d).length := by
      apply widthActual_le
      rw [indent_length]
      simp only [Rec.depth] at hd
      omega
    simp only [printFields, dumpLines, unlines, ih d hxr (by simpa [Rec.depth] using hd),
      fmtWidth_indent, hw, hm, if_true, Except.map, String.append_assoc]
  | sub m inner rest ihi ihr =>
    intro d hx hd
    obtain ⟨hm, hxi, hxr⟩ := allExported_sub m inner rest hx
    have hw : widthActual (indent d).length = widthClaimed (indent d).length := by
      apply widthActual_le
      rw [indent_length]
      simp only [Rec.depth] at hd
      omega
    have hdi : d + 1 + inner.depth ≤ 8 := by
      simp only [Rec.depth] at hd
      omega
    have hdr : d + rest.depth ≤ 8 := by
      simp only [Rec.depth] at hd
      omega
    simp only [printFields, dumpLines, unlines, unlines_append, indent_succ, ihi (d + 1) hxi hdi,
      ihr d hxr hdr, fmtWidth_indent, hw, hm, if_true, Except.map, String.append_assoc]

end Lemmas

/-! # The claims -/

/-! ## C1 -/

/-- C2. Environment has the highest precedence: whatever the defaults, the
snapshot file, the process state and the command line are, in the instance a
load returns every leaf whose derived environment variable is set, non-empty
and parseable for the leaf's kind holds the parsed environment value. -/
theorem env_has_highest_precedence {F : Type} (h : Host F) (createDefault : Unit → Rec F)
    (applicationName packageVersionString defaultConfigPath : String) (w : World F)
    (l : Loaded F)
    (hres : ReadConfigWithSaver h createDefault applicationName packageVersionString
      defaultConfigPath w = .ok l)
    (k : Nat) (leaf : Leaf F) (hk : (leaves (createDefault ()))[k]? = some leaf)
    (x : Prim F) (hset : w.env (envPath h leaf.chain) ≠ "")
    (hparse : parseKind h (w.env (envPath h leaf.chain)) leaf.value = some x) :
    (leaves l.config)[k]? = some { chain := leaf.chain, value := x } := by
  obtain ⟨c2, hs, hc, _, _⟩ := ReadConfigWithSaver_ok h createDefault applicationName
    packageVersionString defaultConfigPath w l hres
  exact env_sets_leaf h w.env (createDefault ()) c2 l.config hs hc k leaf hk x hset hparse

/-- C2, witness: the command line supplies `-int-field-2=7`, the environment
`INT_FIELD_2=-321`; the leaf `IntField2` of the returned instance holds -321. -/
theorem env_has_highest_precedence_witness :
    ∃ l, ReadConfigWithSaver testHost testDefaults "test application" "0.0.0-alpha"
        "/tmp/config.json" cliEnvWorld = .ok l ∧
      (leaves l.config)[1]? =
        some { chain := [⟨"IntField2", "int_field_2", some "int field # 1", true⟩],
               value := .int (-321) } := by
  have hl : ∃ l, ReadConfigWithSaver testHost testDefaults "test application" "0.0.0-alpha"
      "/tmp/config.json" cliEnvWorld = .ok l := ⟨_, rfl⟩
  obtain ⟨l, hl⟩ := hl
  exact ⟨l, hl, env_has_highest_precedence testHost testDefaults _ _ _ cliEnvWorld l hl 1 _
    (by rfl) _ (by decide) (by rfl)⟩

/-! ## C3 -/

/-- C3, the code at the failing input: the snapshot file gives `IntField1`
the value 7 and `Internal.Value` the value 8, the command line and the
environment are empty.  The file layer stores both values, and the load
returns `IntField1` at its compiled default 123 (overwritten by the default
of the switch `int-field-1`), while `Internal.Value` keeps the file's 8. -/
theorem file_value_lost_to_switch_default :
    Unmarshal testHost snapshotDoc (testDefaults ()) =
      some (TestConfiguration 7 (-123) "some string 1" "some string 2" true false
        ⟨123123, 3⟩ ⟨-123123, 3⟩ (Internal 8)) ∧
    (ReadConfigWithSaver testHost testDefaults "test application" "0.0.0-alpha"
      "/tmp/config.json" fileWorld).map (fun l => l.config) =
      .ok (TestConfiguration 123 (-123) "some string 1" "some string 2" true false
        ⟨123123, 3⟩ ⟨-123123, 3⟩ (Internal 8)) := by
  constructor <;> rfl

/-! ## C4 -/

/-- C4, the code at the failing input: after registration and parsing of
`-int-field-1=9 -internal-value=5` the switch `internal-value` is recorded in
`flagValues` and holds 5, and `readConfigFromFlag` copies 9 into `IntField1`
but leaves `Internal.Value` at 9832. -/
theorem nested_switch_not_copied_back :
    "internal-value" ∈ stagedProc.flagValues ∧
    (lookupFlag stagedProc.formal "internal-value").map (fun f => f.value) = some (.int 5) ∧
    "internal" ∉ stagedProc.flagValues ∧
    readConfigFromFlag testHost stagedProc "" (testDefaults ()) =
      .ok (TestConfiguration 9 (-123) "some string 1" "some string 2" true false
        ⟨123123, 3⟩ ⟨-123123, 3⟩ (Internal 9832)) ∧
    (ReadConfigWithSaver testHost testDefaults "test application" "0.0.0-alpha"
      "/tmp/config.json" nestedSwitchWorld).map (fun l => l.config) =
      .ok (TestConfiguration 9 (-123) "some string 1" "some string 2" true false
        ⟨123123, 3⟩ ⟨-123123, 3⟩ (Internal 9832)) := by
  refine ⟨by decide, by decide, by decide, by rfl, by rfl⟩

/-! ## C5 -/

/-- C5 (amended). When `initFlagsByConfig` completes, every String, Int,
Float or Bool leaf, at any nesting depth, that carries a non-empty
description and all of whose enclosing struct fields carry one too, is
registered as exactly one switch: named by the kebab path of the leaf, with
the leaf's value at registration time as default and the description as help
text, and recorded in `flagValues`. -/
theorem exposed_leaf_registered_once {F : Type} (h : Host F) (r : Rec F) (st st1 : Proc F)
    (hinit : initFlagsByConfig h "" r st = .ok st1)
    (l : Leaf F) (hl : l ∈ leaves r) (hexp : l.exposed = true) :
    st1.formal.filter (fun f => f.name = kebabPath h l.chain) =
      [{ name := kebabPath h l.chain, usage := l.help, defValue := l.value,
         value := l.value }] ∧
    kebabPath h l.chain ∈ st1.flagValues := by
  have hinit := initFlagsByConfig_ok h r "" st st1 hinit
  obtain ⟨h1, h2, h3, h4⟩ := defineAll_ok _ (regs_wf h "" r) st st1 hinit
  have hsw : switchAt h "" l = (⟨kebabPath h l.chain, l.help, l.value, l.value⟩ : Flag F) := by
    simp [switchAt]
  have hmem : switchAt h "" l ∈ regs h "" r :=
    List.mem_map_of_mem _ (List.mem_filter.mpr ⟨hl, hexp⟩)
  have hname : (switchAt h "" l).name = kebabPath h l.chain := by simp [switchAt]
  refine ⟨?_, ?_⟩
  · rw [h1, List.filter_append]
    have hold : st.formal.filter (fun f => f.name = kebabPath h l.chain) = [] := by
      simp only [List.filter_eq_nil_iff, decide_eq_true_eq]
      intro g hg heq
      apply h4 _ hmem
      rw [hname]
      exact List.mem_map.mpr ⟨g, hg, heq⟩
    rw [hold, List.append_nil]
    have hnd : ((regs h "" r).reverse.map Flag.name).Nodup := by
      rw [List.map_reverse]
      exact List.nodup_reverse.mpr h3
    rw [← hsw, ← hname]
    exact filter_name_of_nodup _ hnd (switchAt h "" l) (List.mem_reverse.mpr hmem)
  · rw [h2]
    apply List.mem_append_left
    rw [List.mem_reverse, ← hname]
    exact List.mem_map_of_mem _ hmem

/-- C5, witness: the nested leaf `Internal.Value` of the test schema, whose
field and whose enclosing field both carry a description, after the switch
`config` was defined. -/
theorem exposed_leaf_registered_once_witness :
    ∃ st1, initFlagsByConfig testHost "" (testDefaults ())
        { formal := [configFlag "/tmp/config.json"], flagValues := [] } = .ok st1 ∧
      st1.formal.filter (fun f => f.name = "internal-value") =
        [{ name := "internal-value", usage := "struct internal int field",
           defValue := .int 9832, value := .int 9832 }] ∧
      "internal-value" ∈ st1.flagValues := by
  have hst : ∃ st1, initFlagsByConfig testHost "" (testDefaults ())
      { formal := [configFlag "/tmp/config.json"], flagValues := [] } = .ok st1 := ⟨_, rfl⟩
  obtain ⟨st1, hst⟩ := hst
  exact ⟨st1, hst, exposed_leaf_registered_once testHost (testDefaults ()) _ st1 hst
    { chain := [⟨"Internal", "internal", some "struct field", true⟩,
                ⟨"Value", "value", some "struct internal int field", true⟩],
      value := .int 9832 } (by decide) (by decide)⟩

/-- C5, counterexample: the leaf `V` carries a non-empty description, its
enclosing field `Inner` carries none, and `initFlagsByConfig` registers no
switch at all. -/
theorem described_leaf_under_undescribed_parent_not_registered :
    leaves hiddenParent =
      [{ chain := [⟨"Inner", "inner", none, true⟩, ⟨"V", "v", some "v field", true⟩], value := .int 1 }] ∧
    initFlagsByConfig testHost "" hiddenParent (freshProc Dec) = .ok (freshProc Dec) ∧
    lookupFlag (freshProc Dec).formal "inner-v" = none := by
  decide

/-! ## C6 -/

/-- C7 (amended). For every record `r` all of whose fields are exported and
that is nested at most eight levels deep, `PrintConfig` applied to `r` and to
a reference to `r` both write exactly the banner, then depth first in
declaration order one line `<indent> - <name> : <value>` per leaf and one
header line `<indent> - <name>` per nested record followed by its lines at an
indent three blanks longer, then an empty line; the name is left-justified
and padded with blanks to the width 25 minus the indent length. -/
theorem PrintConfig_writes_dump {F : Type} (h : Host F) (r : Rec F)
    (applicationName packageVersionString : String)
    (hexp : r.allExported = true) (hdepth : r.depth ≤ 8) :
    PrintConfig h (.struct r) applicationName packageVersionString
        = .ok (dumpText h widthClaimed r applicationName packageVersionString) ∧
    PrintConfig h (.ptr r) applicationName packageVersionString
        = .ok (dumpText h widthClaimed r applicationName packageVersionString) := by
  have h0 : printFields h "" r = .ok (unlines (dumpLines h widthClaimed 0 r)) :=
    printFields_eq h r 0 hexp (by omega)
  constructor <;>
    simp only [PrintConfig, printConfig, Except.map, h0, dumpText]

/-- C7, witness: the run of `TestPrintConfig`, on the value and on a pointer
to it, writes the text the test expects. -/
theorem TestPrintConfig_result :
    PrintConfig testHost (.struct printedConfiguration) "Test-application" "1.2.3-test"
      = .ok expectedDump ∧
    PrintConfig testHost (.ptr printedConfiguration) "Test-application" "1.2.3-test"
      = .ok expectedDump := by
  have key := PrintConfig_writes_dump testHost printedConfiguration "Test-application"
    "1.2.3-test" (by decide) (by decide)
  have hd : dumpText testHost widthClaimed printedConfiguration "Test-application" "1.2.3-test"
      = expectedDump := by rfl
  rw [hd] at key
  exact key

/-- C7, counterexample: for a struct with an unexported leaf `port` the call
panics and writes no dump; and nine levels deep, where the indent is 27
characters long, the name `X` is written padded to two characters and the
dump differs from the one with the width 25 minus the indent length. -/
theorem PrintConfig_departs_from_dump :
    PrintConfig testHost (.struct (unexportedDefaults ())) "app" "1"
      = .error (.unexported "port") ∧
    PrintConfig testHost (.ptr (unexportedDefaults ())) "app" "1"
      = .error (.unexported "port") ∧
    printFields testHost (indent 9) (deep 0) = .ok (indent 9 ++ " - X  : 1\n") ∧
    dumpLines testHost widthClaimed 9 (deep 0) = [indent 9 ++ " - X : 1"] ∧
    PrintConfig testHost (.struct (deep 9)) "app" "1"
      ≠ .ok (dumpText testHost widthClaimed (deep 9) "app" "1") := by
  refine ⟨by rfl, by rfl, by decide, by decide, by decide⟩

/-! ## C8 -/

/-- C8 (amended). The snapshot that `ReadConfigWithSaver` writes through its
scheduled `save` is the serialisation of the instance the call returns: it
is taken after both overlays, so every leaf whose environment variable is
set, non-empty and parseable is written with the environment value (and the
values copied from the switches are in it as well). -/
theorem snapshot_is_returned_instance {F : Type} (h : Host F) (createDefault : Unit → Rec F)
    (applicationName packageVersionString defaultConfigPath : String) (w : World F)
    (l : Loaded F)
    (hres : ReadConfigWithSaver h createDefault applicationName packageVersionString
      defaultConfigPath w = .ok l) :
    MarshalIndent h l.config = some l.snapshot ∧
    ∀ (k : Nat) (leaf : Leaf F) (x : Prim F), (leaves (createDefault ()))[k]? = some leaf →
      w.env (envPath h leaf.chain) ≠ "" →
      parseKind h (w.env (envPath h leaf.chain)) leaf.value = some x →
      (leaves l.config)[k]? = some { chain := leaf.chain, value := x } := by
  obtain ⟨c2, hs, hc, hm, _⟩ := ReadConfigWithSaver_ok h createDefault applicationName
    packageVersionString defaultConfigPath w l hres
  refine ⟨hm, ?_⟩
  intro k leaf x hk hset hparse
  exact env_sets_leaf h w.env (createDefault ()) c2 l.config hs hc k leaf hk x hset hparse

/-- C8, witness: a load with switches on the command line and variables in
the environment. -/
theorem snapshot_is_returned_instance_witness :
    ∃ l, ReadConfigWithSaver testHost testDefaults "test application" "0.0.0-alpha"
        "/tmp/config.json" cliEnvWorld = .ok l ∧
      MarshalIndent testHost l.config = some l.snapshot := by
  have hl : ∃ l, ReadConfigWithSaver testHost testDefaults "test application" "0.0.0-alpha"
      "/tmp/config.json" cliEnvWorld = .ok l := ⟨_, rfl⟩
  obtain ⟨l, hl⟩ := hl
  exact ⟨l, hl, (snapshot_is_returned_instance testHost testDefaults _ _ _ cliEnvWorld l hl).1⟩

/-- C8, counterexample: with no snapshot file, `-int-field-2=7 -string-field-2
"from cli"` on the command line and the environment of `TestReadConfig`, the
snapshot written by the scheduled `save` holds the switch value `from cli`
and the environment values -321, `test string 1`, `true` and 4444; it is not
the serialisation of the defaults plus file values. -/
theorem snapshot_contains_env_values :
    (ReadConfigWithSaver testHost testDefaults "test application" "0.0.0-alpha"
      "/tmp/config.json" cliEnvWorld).map (fun l => l.snapshot) = .ok cliEnvSnapshot ∧
    MarshalIndent testHost (testDefaults ()) ≠ some cliEnvSnapshot := by
  constructor
  · rfl
  · decide

/-! ## C9 -/

/-- C9 (amended). For a factory that returns a reference to a record all of
whose fields are exported, whose leaves have pairwise distinct kebab paths
and in which no leaf registered as a switch has the kebab path `config`, on
the first load in a process (nothing recorded in `flagValues` yet) in which
no switch defined before is named `config` or by the kebab path of a leaf
registered as a switch, for every command line the switch parser accepts for
the registered switches, every snapshot file state other than the JSON
document `null` and every environment, `ReadConfigWithSaver` runs every
layer to its end: parsing, the file layer on the factory's record, the
copy-back of the switches on its result and the environment layer on the
result of that; it returns the outcome of the environment layer as the live
instance, with a nil error and the serialisation of that instance as the
snapshot, when the encoder accepts the instance, and ends in the fatal error
of `save` when it does not. -/
theorem first_load_completes {F : Type} (h : Host F) (createDefault : Unit → Rec F)
    (applicationName packageVersionString defaultConfigPath : String) (w : World F)
    (hexp : (createDefault ()).allExported = true)
    (hfirst : w.proc.flagValues = [])
    (hfree : ∀ g ∈ w.proc.formal, g.name ≠ "config" ∧
      ∀ l ∈ leaves (createDefault ()), l.exposed = true → g.name ≠ kebabPath h l.chain)
    (huniq : ((leaves (createDefault ())).map fun l => kebabPath h l.chain).Nodup)
    (hconfig : ∀ l ∈ leaves (createDefault ()), l.exposed = true →
      kebabPath h l.chain ≠ "config")
    (hparse : ∃ fs, parseArgs h
      ((regs h "" (createDefault ())).reverse ++ configFlag defaultConfigPath :: w.proc.formal)
      none w.args = .ok fs)
    (hfile : ∀ p, w.files p ≠ .doc .null) :
    ∃ fs2 c1 c2 c3,
      parseArgs h
        ((regs h "" (createDefault ())).reverse ++ configFlag defaultConfigPath :: w.proc.formal)
        none w.args = .ok fs2 ∧
      loadFile h (w.files (pathOf fs2 defaultConfigPath)) (createDefault ()) = some c1 ∧
      readConfigFromFlag h
        { formal := fs2, flagValues := ((regs h "" (createDefault ())).map Flag.name).reverse }
        "" c1 = .ok c2 ∧
      readConfigFromEnv h w.env "" c2 = .ok c3 ∧
      match MarshalIndent h c3 with
      | some bytes => ReadConfigWithSaver h createDefault applicationName
          packageVersionString defaultConfigPath w =
            .ok { config := c3, err := none,
                  proc := { formal := fs2,
                            flagValues := ((regs h "" (createDefault ())).map Flag.name).reverse },
                  path := pathOf fs2 defaultConfigPath, snapshot := bytes }
      | none => ReadConfigWithSaver h createDefault applicationName
          packageVersionString defaultConfigPath w = .error .fatal := by
  obtain ⟨fs2, hfs2⟩ := hparse
  have hno := config_not_registered h (createDefault ()) hconfig
  have hold : "config" ∉ w.proc.formal.map Flag.name := by
    intro hmem
    obtain ⟨g, hg, hgn⟩ := List.mem_map.mp hmem
    exact (hfree g hg).1 hgn
  have hfr := regs_free h (createDefault ()) (configFlag defaultConfigPath) rfl w.proc.formal
    hconfig (fun g hg => (hfree g hg).2)
  have hkeys := parseArgs_key h w.args _ none fs2 (fun _ hx => absurd hx (by simp)) hfs2
  -- the file layer yields an instance of the same shape
  obtain ⟨c1, hc1⟩ := loadFile_some h (w.files (pathOf fs2 defaultConfigPath)) (createDefault ())
    (hfile _)
  have hs1 : sig c1 = sig (createDefault ()) := sig_loadFile h _ _ _ hc1
  have hx1 : c1.allExported = true := by
    rw [allExported_loadFile h _ _ _ hc1]
    exact hexp
  -- the copy-back completes on anything of that shape
  have hcopy : ∃ c2, readConfigFromFlag h
      { formal := fs2, flagValues := ((regs h "" (createDefault ())).map Flag.name).reverse }
      "" c1 = .ok c2 := by
    apply readConfigFromFlag_total h _ c1 hx1
    intro l1 hl1 hmem
    obtain ⟨k, hk⟩ := List.getElem?_of_mem hl1
    obtain ⟨l, hl, hchain, hkind⟩ := leaf_of_sig c1 (createDefault ()) hs1.symm k l1 hk
    have hlmem : l ∈ leaves (createDefault ()) := List.getElem?_mem hl
    simp only at hmem
    rw [← hchain] at hmem ⊢
    obtain ⟨f, hf, hv⟩ := lookup_registered h _ (configFlag defaultConfigPath :: w.proc.formal)
      huniq l hlmem hmem
    obtain ⟨f2, hf2, hk2⟩ := lookup_sim _ _ fs2 f hkeys hf
    exact ⟨f2, hf2, by rw [hk2, hv, hkind]⟩
  obtain ⟨c2, hc2⟩ := hcopy
  have hx2 : c2.allExported = true := by
    rw [allExported_readConfigFromFlag h _ c1 "" c2 hc2]
    exact hx1
  -- and so does the environment layer
  obtain ⟨c3, hc3⟩ := readConfigFromEnv_total h w.env c2 "" hx2
  refine ⟨fs2, c1, c2, c3, hfs2, hc1, hc2, hc3, ?_⟩
  unfold ReadConfigWithSaver
  simp only [hfirst, flagVar_config _ _ hold, init_first h _ hexp _ huniq hfr, hfs2, hc1, hc2,
    hc3, save]
  cases MarshalIndent h c3 with
  | none => rfl
  | some bytes => rfl

/-- C9, witness: inside a test binary, where `test.v` is already defined, a
valid snapshot file, two switches on the command line and the environment of
`TestReadConfig`; the load returns the instance with the switch value
`from cli` and the environment values. -/
theorem first_load_completes_witness :
    (∃ fs2 c1 c2 c3,
      parseArgs testHost
        ((regs testHost "" (testDefaults ())).reverse
          ++ configFlag "/tmp/config.json" :: testBinaryWorld.proc.formal)
        none testBinaryWorld.args = .ok fs2 ∧
      loadFile testHost (testBinaryWorld.files (pathOf fs2 "/tmp/config.json"))
        (testDefaults ()) = some c1 ∧
      readConfigFromFlag testHost
        { formal := fs2,
          flagValues := ((regs testHost "" (testDefaults ())).map Flag.name).reverse }
        "" c1 = .ok c2 ∧
      readConfigFromEnv testHost testBinaryWorld.env "" c2 = .ok c3 ∧
      match MarshalIndent testHost c3 with
      | some bytes => ReadConfigWithSaver testHost testDefaults "test application"
          "0.0.0-alpha" "/tmp/config.json" testBinaryWorld =
            .ok { config := c3, err := none,
                  proc := { formal := fs2,
                            flagValues :=
                              ((regs testHost "" (testDefaults ())).map Flag.name).reverse },
                  path := pathOf fs2 "/tmp/config.json", snapshot := bytes }
      | none => ReadConfigWithSaver testHost testDefaults "test application"
          "0.0.0-alpha" "/tmp/config.json" testBinaryWorld = .error .fatal) ∧
    (ReadConfigWithSaver testHost testDefaults "test application" "0.0.0-alpha"
      "/tmp/config.json" testBinaryWorld).map (fun l => (l.config, l.err, l.snapshot)) =
      .ok (TestConfiguration 123 (-321) "test string 1" "from cli" true true
        ⟨123123, 3⟩ ⟨-123123, 3⟩ (Internal 4444), none, cliEnvSnapshot) :=
  ⟨first_load_completes testHost testDefaults "test application" "0.0.0-alpha"
    "/tmp/config.json" testBinaryWorld (by decide) rfl (by decide) (by decide) (by decide)
    ⟨_, rfl⟩ (by intro p; simp [testBinaryWorld, snapshotDoc]),
    by rfl⟩

/-- C9, counterexample: a first load whose factory returns a reference to a
record does not return when the record has a described leaf named `Config`
(the switch `config` is defined twice), when the command line has a switch
that is not defined (the parser exits), when the record has an unexported
leaf `port` and `PORT=8080` is set (the write through `reflect` panics), when
the environment puts a not-a-number into a float leaf (the encoder rejects
it and `save` is fatal), or when the snapshot file is the document `null`
(the instance becomes nil). -/
theorem first_load_aborts :
    ReadConfigWithSaver testHost portConfigDefaults "test application" "0.0.0-alpha"
      "/tmp/config.json" testWorld = .error (.flagRedefined "config") ∧
    ReadConfigWithSaver testHost testDefaults "test application" "0.0.0-alpha"
      "/tmp/config.json" unknownSwitchWorld = .error .parseExit ∧
    ReadConfigWithSaver testHost unexportedDefaults "test application" "0.0.0-alpha"
      "/tmp/config.json" portWorld = .error (.unexported "port") ∧
    ReadConfigWithSaver nanHost scaleDefaults "test application" "0.0.0-alpha"
      "/tmp/config.json" nanWorld = .error .fatal ∧
    ReadConfigWithSaver testHost testDefaults "test application" "0.0.0-alpha"
      "/tmp/config.json" nullFileWorld = .error .zeroValue := by
  refine ⟨by rfl, by rfl, by rfl, by rfl, by rfl⟩

/-! ## C10 -/

end GoConfig
